import Mathlib

/-!
# Verification of the mire structured-logging library

A shallow embedding, in Lean 4, of the parts of the `mire` Go repository that
the specification claims talk about:

* the record model (`core.LogEntry`, severity levels, tagged field values),
* `util.FormatValue` (src/util/format.go),
* the JSON formatter's manual (non-pretty) byte layout, its escaping and its
  masking machinery (src/formatter/json.go),
* the CSV formatter (src/formatter/csv.go) together with a byte-level model of
  Go's `encoding/csv` record writer,
* the sampler (src/sampler/sampler.go),
* the external HTTP hook constructor and its retry loop
  (src/hook/external_hook.go), with network outcomes supplied by an oracle,
* spec-modelled components (level gate, asynchronous close/drain) whose
  implementation is not part of the source tree.

Bytes are modelled as `Nat` (Go bytes are always < 256; the byte-valued
operations below are faithful on that range).  Go strings and `[]byte` values
are `List Nat`.  Time formatting is outside the model: a record's timestamp is
represented directly by the bytes its rendering produces, which both
formatters write verbatim.  The tagged value type covers the string, bytes,
every integer width, boolean, null and error cases of the Go code, and the
non-finite floating-point constants (whose fixed `NaN`/`+Inf`/`-Inf` tokens
the formatters emit exactly); finite floats are outside the model, since
their digit generation is strconv's binary-to-decimal conversion.

A byte-level JSON grammar (parser) is defined further below to state and prove
round-trip properties of the JSON formatter's output.
-/

namespace Mire

/-- Bytes of an ASCII string literal, for readable byte-sequence constants. -/
def bs (s : String) : List Nat := s.data.map Char.toNat

/-! ## Severity levels (core) -/

/-- `core.Level`: ordered severity enum, `TRACE < DEBUG < INFO < NOTICE <
WARN < ERROR < FATAL < PANIC`. -/
inductive Level
  | TRACE | DEBUG | INFO | NOTICE | WARN | ERROR | FATAL | PANIC
deriving DecidableEq

/-- Numeric rank of a severity, inducing the spec's order. -/
def Level.toNat : Level → Nat
  | .TRACE => 0 | .DEBUG => 1 | .INFO => 2 | .NOTICE => 3
  | .WARN => 4 | .ERROR => 5 | .FATAL => 6 | .PANIC => 7

/-- `Level.Bytes()`: the pre-allocated upper-case name of a severity. -/
def Level.bytes : Level → List Nat
  | .TRACE => bs "TRACE" | .DEBUG => bs "DEBUG" | .INFO => bs "INFO"
  | .NOTICE => bs "NOTICE" | .WARN => bs "WARN" | .ERROR => bs "ERROR"
  | .FATAL => bs "FATAL" | .PANIC => bs "PANIC"

/-! ## Record model (core.LogEntry) -/

/-- `core.Caller`: optional (file, line) pair attached to an entry. -/
structure Caller where
  file : List Nat
  line : Int
deriving DecidableEq

/-- An opaque Go `error` value: `text` is what `Error()` returns; `appendErr`
is present exactly when the value implements `core.ErrorAppender`, and holds
the bytes `AppendError` writes into the buffer. -/
structure GoError where
  appendErr : Option (List Nat)
  text : List Nat
deriving DecidableEq

/-- A Go floating-point value as the formatters distinguish them: the three
non-finite constants, which `strconv.AppendFloat` renders as the bare tokens
`NaN`, `+Inf` and `-Inf` whatever the format verb and precision.  Finite
values are outside the model: their renderings (shortest `'g'` literals in
`formatJSONValue`, fixed two-decimal `'f'` literals in `util.FormatValue`)
are decimal or scientific number literals whose digit generation
(strconv's binary-to-decimal conversion) is not reproduced here. -/
inductive F64
  | nan
  | posInf
  | negInf
deriving DecidableEq

/-- The token `strconv.AppendFloat`/`FormatFloat` produces for a non-finite
value (independent of the `'f'`/`'g'` verb, the precision and the bit size). -/
def f64Tok : F64 → List Nat
  | .nan => bs "NaN"
  | .posInf => bs "+Inf"
  | .negInf => bs "-Inf"

/-- A tagged field value (`interface{}` as used by the formatters).
`int` stands for Go `int` and `int64`, the two widths `formatJSONValue`
writes as bare numbers via `strconv.AppendInt`; `intN` stands for `int8`,
`int16` and `int32` and `uintN` for `uint`, `uint8`, `uint16`, `uint32` and
`uint64`, which `formatJSONValue` only reaches through its `default` branch
(quoted decimal strings) although `util.FormatValue` prints every integer
width identically bare — within each group the widths render identically,
so each group is collapsed to one constructor carrying the mathematical
value.  `f64` is a `float64` and `f32` a `float32`, restricted to the
non-finite values (see `F64`).  `err` is an opaque error. -/
inductive Value
  | str (s : List Nat)
  | byt (b : List Nat)
  | int (i : Int)
  | intN (i : Int)
  | uintN (n : Nat)
  | f64 (x : F64)
  | f32 (x : F64)
  | bool (b : Bool)
  | null
  | err (e : GoError)
deriving DecidableEq

/-- `core.LogEntry`, restricted to the fields the formatter claims exercise.
`Timestamp` is the byte rendering of the entry's instant under the
formatter's timestamp format (Go `time` formatting is outside the model; both
formatters write these bytes verbatim). -/
structure LogEntry where
  Timestamp : List Nat
  Level : Level
  Message : List Nat
  PID : Int
  GoroutineID : List Nat
  TraceID : List Nat
  SpanID : List Nat
  UserID : List Nat
  Caller : Option Caller
  Error : Option GoError
  StackTrace : List Nat
  Fields : List (List Nat × Value)

/-! ## Decimal rendering (strconv.AppendInt) -/

/-- Most-significant-first decimal digits of `n`, prepended to `acc`; the
fuel argument makes the recursion structural (any fuel above `n` suffices). -/
def natDecAux : Nat → Nat → List Nat → List Nat
  | 0, _, acc => acc
  | fuel + 1, n, acc =>
    if n < 10 then (48 + n % 10) :: acc
    else natDecAux fuel (n / 10) ((48 + n % 10) :: acc)

/-- Decimal digit bytes of a natural number. -/
def natDec (n : Nat) : List Nat := natDecAux (n + 1) n []

/-- `strconv.AppendInt(_, i, 10)`: optional minus sign, then decimal digits. -/
def intDec (i : Int) : List Nat :=
  if i < 0 then 45 :: natDec i.natAbs else natDec i.natAbs

/-! ## util.FormatValue (src/util/format.go) -/

/-- The `content` byte sequence `util.FormatValue` computes for a value
before width/quote handling (the error case shown is the non-`ErrorAppender`
fallback `v.Error()`; an `ErrorAppender` error never reaches `content`).
Every integer width has its own `case` arm calling `strconv.AppendInt` or
`AppendUint`, so all print bare decimal; floats go through
`strconv.AppendFloat(_, v, 'f', 2, _)`, which on the modelled non-finite
values yields the bare `NaN`/`+Inf`/`-Inf` tokens.  `nil` falls through to
the `default` branch's manual conversion, which yields `"null"`. -/
def renderContent : Value → List Nat
  | .str s => s
  | .byt b => b
  | .int i => intDec i
  | .intN i => intDec i
  | .uintN n => natDec n
  | .f64 x => f64Tok x
  | .f32 x => f64Tok x
  | .bool true => bs "true"
  | .bool false => bs "false"
  | .null => bs "null"
  | .err e => e.text

/-- Whether a value is an error implementing `core.ErrorAppender` (the case
`util.FormatValue` short-circuits on). -/
def isAppendErr : Value → Bool
  | .err ⟨some _, _⟩ => true
  | _ => false

/-- `util.FormatValue(buf, value, maxWidth)`: the bytes appended to `buf`.
An `ErrorAppender` error writes its own bytes and returns at once; every
other value renders to `content`, is truncated to `maxWidth` bytes plus
`"..."` when `maxWidth > 0` and the content is longer, and is otherwise
wrapped in double quotes exactly when it contains a space byte. -/
def FormatValue (value : Value) (maxWidth : Int) : List Nat :=
  match value with
  | .err ⟨some app, _⟩ => app
  | v =>
    let content := renderContent v
    if 0 < maxWidth ∧ maxWidth < (content.length : Int) then
      content.take maxWidth.toNat ++ bs "..."
    else if content.contains 32 then
      (34 :: content) ++ [34]
    else content

/-! ## JSON formatter (src/formatter/json.go) -/

/-- `formatter.JSONFormatter` configuration (the timestamp format string is
absorbed into `LogEntry.Timestamp`, see above; `DisableHTMLEscape` and
`EnableDuration` are never read by the manual path and are dropped).
`FieldKeyMap` and `FieldTransformers` are association lists standing for the
Go maps. -/
structure JSONFormatter where
  PrettyPrint : Bool := false
  ShowCaller : Bool := false
  ShowGoroutine : Bool := false
  ShowPID : Bool := false
  ShowTraceInfo : Bool := false
  EnableStackTrace : Bool := false
  FieldKeyMap : List (List Nat × List Nat) := []
  SensitiveFields : List (List Nat) := []
  MaskSensitiveData : Bool := false
  MaskStringBytes : List Nat := []
  FieldTransformers : List (List Nat × (Value → Value)) := []

/-- The lower-case hex digit byte the manual escaper emits for `d < 16`. -/
def hexDigit (d : Nat) : Nat := if d < 10 then 48 + d else 97 + d - 10

/-- One byte, escaped as `escapeJSON` escapes it: the seven named escapes,
`\u00XX` for other control bytes, and the byte itself otherwise. -/
def escByte (b : Nat) : List Nat :=
  if b = 34 then [92, 34]
  else if b = 92 then [92, 92]
  else if b = 8 then [92, 98]
  else if b = 12 then [92, 102]
  else if b = 10 then [92, 110]
  else if b = 13 then [92, 114]
  else if b = 9 then [92, 116]
  else if b < 32 then [92, 117, 48, 48, hexDigit (b / 16), hexDigit (b % 16)]
  else [b]

/-- `escapeJSON(buf, data)`: per-byte escaping of a string body. -/
def escapeJSON (data : List Nat) : List Nat := data.flatMap escByte

/-- `formatJSONValue(buf, v)`: strings and byte slices are written escaped in
quotes, booleans and nil as bare tokens.  Only the widths `int` and `int64`
have bare-number `case` arms (`strconv.AppendInt`); `int8`/`int16`/`int32`
and every unsigned width fall into the `default` branch, whose local manual
conversion renders their decimal digits and the branch then writes them
escaped in quotes — so those widths come out as JSON strings, not numbers.
A `float64` has its own arm, `strconv.AppendFloat(_, v, 'g', -1, 64)`
written bare — on the modelled non-finite values the bare non-JSON tokens
`NaN`/`+Inf`/`-Inf` — while a `float32` falls into the `default` branch and
is written quoted.  An error value also falls into the `default` branch,
whose conversion has no error case and yields the quoted placeholder
`"<complex-type>"`. -/
def formatJSONValue : Value → List Nat
  | .str s => (34 :: escapeJSON s) ++ [34]
  | .byt b => (34 :: escapeJSON b) ++ [34]
  | .int i => intDec i
  | .intN i => (34 :: escapeJSON (intDec i)) ++ [34]
  | .uintN n => (34 :: escapeJSON (natDec n)) ++ [34]
  | .f64 x => f64Tok x
  | .f32 x => (34 :: escapeJSON (f64Tok x)) ++ [34]
  | .bool true => bs "true"
  | .bool false => bs "false"
  | .null => bs "null"
  | .err _ => (34 :: escapeJSON (bs "<complex-type>")) ++ [34]

/-- Whether `formatJSONValue` emits a well-formed JSON token for the value:
false exactly for a (non-finite) `float64`, which is written bare as
`NaN`/`+Inf`/`-Inf` and breaks the document's JSON validity. -/
def jsonSafeValue : Value → Bool
  | .f64 _ => false
  | _ => true

/-- The members of the `"fields"` object after the first: each preceded by
the comma the `first` flag inserts. -/
def fieldsSegSep : List (List Nat × Value) → List Nat
  | [] => []
  | p :: rest =>
    (44 :: (((34 :: p.1) ++ [34, 58]) ++ formatJSONValue p.2)) ++ fieldsSegSep rest

/-- The interior of the `"fields"` object: `"key":value` members joined by
commas, in field order (keys are written raw, not escaped, exactly as
`buf.Write(core.S2b(k))` does). -/
def fieldsSegment : List (List Nat × Value) → List Nat
  | [] => []
  | p :: rest =>
    (((34 :: p.1) ++ [34, 58]) ++ formatJSONValue p.2) ++ fieldsSegSep rest

/-- `JSONFormatter.formatManually(buf, entry)`: the exact byte layout of the
non-pretty `Format` path.  Timestamp, caller file and trace ids are written
raw; message and stack trace go through `escapeJSON`; field keys are raw and
field values go through `formatJSONValue`.  The sensitive-field and
transformer configuration is never consulted on this path. -/
def formatManually (f : JSONFormatter) (e : LogEntry) : List Nat :=
  [123]
  ++ bs "\"timestamp\":\"" ++ e.Timestamp ++ bs "\","
  ++ bs "\"level_name\":\"" ++ e.Level.bytes ++ bs "\","
  ++ bs "\"message\":\"" ++ escapeJSON e.Message ++ [34]
  ++ (if f.ShowPID then bs ",\"pid\":" ++ intDec e.PID else [])
  ++ (match f.ShowCaller, e.Caller with
      | true, some c => bs ",\"caller\":\"" ++ c.file ++ [58] ++ intDec c.line ++ [34]
      | _, _ => [])
  ++ (if e.Fields.length > 0
      then (bs ",\"fields\":" ++ [123]) ++ fieldsSegment e.Fields ++ [125]
      else [])
  ++ (if f.ShowTraceInfo then
        (if e.TraceID ≠ [] then bs ",\"trace_id\":\"" ++ e.TraceID ++ [34] else [])
        ++ (if e.SpanID ≠ [] then bs ",\"span_id\":\"" ++ e.SpanID ++ [34] else [])
        ++ (if e.UserID ≠ [] then bs ",\"user_id\":\"" ++ e.UserID ++ [34] else [])
      else [])
  ++ (if f.EnableStackTrace ∧ e.StackTrace.length > 0
      then bs ",\"stack_trace\":\"" ++ escapeJSON e.StackTrace ++ [34]
      else [])
  ++ [125, 10]

/-- `JSONFormatter.isSensitive`: linear scan of the configured list. -/
def isSensitive (f : JSONFormatter) (field : List Nat) : Bool :=
  f.SensitiveFields.contains field

/-- `JSONFormatter.processFields`: renaming, transformation and masking of a
field map.  Defined here because it exists in the source — it is reachable
only from `prepareOutputEntry`, which no `Format` path ever calls. -/
def processFields (f : JSONFormatter) (fields : List (List Nat × Value)) :
    List (List Nat × Value) :=
  fields.map (fun p =>
    let key := match f.FieldKeyMap.lookup p.1 with | some k => k | none => p.1
    match f.FieldTransformers.lookup p.1 with
    | some tr => (key, tr p.2)
    | none =>
      if f.MaskSensitiveData ∧ isSensitive f p.1 then (key, .byt f.MaskStringBytes)
      else (key, p.2))

/-! ## CSV formatter (src/formatter/csv.go) -/

/-- `formatter.CSVFormatter`.  `TimestampFormat` is carried for fidelity but
unused by the model (the entry's timestamp is already rendered). -/
structure CSVFormatter where
  IncludeHeader : Bool := false
  FieldOrder : List (List Nat) := []
  TimestampFormat : List Nat := []

/-- `CSVFormatter.formatField`: renders one configured column name.  The nine
built-in names take their data from the entry's dedicated fields (empty when
caller/error is absent); any other name renders the entry field of that name
through `util.FormatValue` with `maxWidth = 0`, or an empty column when the
entry has no such field. -/
def formatField (f : CSVFormatter) (field : List Nat) (e : LogEntry) : List Nat :=
  if field = bs "timestamp" then e.Timestamp
  else if field = bs "level" then e.Level.bytes
  else if field = bs "message" then e.Message
  else if field = bs "pid" then intDec e.PID
  else if field = bs "goroutine_id" then e.GoroutineID
  else if field = bs "trace_id" then e.TraceID
  else if field = bs "file" then (match e.Caller with | some c => c.file | none => [])
  else if field = bs "line" then (match e.Caller with | some c => intDec c.line | none => [])
  else if field = bs "error" then
    (match e.Error with
     | some err => (match err.appendErr with | some app => app | none => err.text)
     | none => [])
  else
    match e.Fields.lookup field with
    | some v => FormatValue v 0
    | none => []

/-- Go `encoding/csv`'s `fieldNeedsQuotes` with the default comma delimiter
and `UseCRLF = false`, at byte level: quote a non-empty field that is the
literal `\.`, contains a comma, quote, CR or LF, or starts with an ASCII
space byte. -/
def csvNeedsQuotes (field : List Nat) : Bool :=
  if field = [] then false
  else if field = [92, 46] then true
  else
    field.any (fun b => b == 44 || b == 34 || b == 13 || b == 10) ||
    (match field.head? with
     | some b => b == 32 || b == 9 || b == 10 || b == 11 || b == 12 || b == 13
     | none => false)

/-- One CSV field as `csv.Writer` emits it: quoted with doubled quotes when
needed (CR and LF are kept verbatim inside quotes when `UseCRLF` is false). -/
def csvEscapeField (field : List Nat) : List Nat :=
  if csvNeedsQuotes field then
    (34 :: field.flatMap (fun b => if b == 34 then [34, 34] else [b])) ++ [34]
  else field

/-- One CSV record as `csv.Writer.Write` emits it: fields joined by commas,
terminated by a bare LF. -/
def csvEncode (record : List (List Nat)) : List Nat :=
  List.intercalate [44] (record.map csvEscapeField) ++ [10]

/-- `CSVFormatter.Format(buf, entry)`: builds one record holding one rendered
column per configured `FieldOrder` name and writes it through the CSV writer
(the pooled record slice starts empty per the pool contract).  `bytes.Buffer`
never fails, so the Go error result is always nil and is dropped here. -/
def csvFormat (f : CSVFormatter) (e : LogEntry) : List Nat :=
  csvEncode (f.FieldOrder.map (fun field => formatField f field e))

/-! ## Sampler (src/sampler/sampler.go) -/

/-- `sampler.LogSampler`: sampling rate and a signed 64-bit call counter. -/
structure LogSampler where
  rate : Int
  counter : Int

/-- Two's-complement wrap of `atomic.AddInt64`'s result into int64 range. -/
def wrap64 (n : Int) : Int := (n + 2 ^ 63) % 2 ^ 64 - 2 ^ 63

/-- `NewSampler(processor, rate)` (the processor is modelled at the call
sites of `SamplerLog`): a sampler with a zero counter. -/
def NewSampler (rate : Int) : LogSampler := ⟨rate, 0⟩

/-- `LogSampler.ShouldLog()`: rates at most 1 always log without touching the
counter; otherwise the counter is atomically incremented (with int64 wrap)
and the call logs exactly when the new counter is divisible by the rate
(Go's `%` is truncated remainder, `Int.tmod`). -/
def ShouldLog (s : LogSampler) : Bool × LogSampler :=
  if s.rate ≤ 1 then (true, s)
  else
    let c := wrap64 (s.counter + 1)
    (Int.tmod c s.rate == 0, { s with counter := c })

/-- `LogSampler.Log(...)`: forwards the event to the wrapped processor
exactly when `ShouldLog` returns true.  The processor is modelled as the
list of events it has received. -/
def SamplerLog (s : LogSampler) (ev : Nat) (sent : List Nat) : LogSampler × List Nat :=
  let r := ShouldLog s
  (r.2, if r.1 then sent ++ [ev] else sent)

/-- State after `k` single-threaded `ShouldLog` calls. -/
def runShouldLog (s : LogSampler) : Nat → LogSampler
  | 0 => s
  | k + 1 => (ShouldLog (runShouldLog s k)).2

/-- The result of the `k`-th single-threaded `ShouldLog` call (counting
from 1). -/
def kthShouldLog (s : LogSampler) (k : Nat) : Bool :=
  (ShouldLog (runShouldLog s (k - 1))).1

/-! ## External hook (src/hook/external_hook.go) -/

/-- `hook.ExternalHook` configuration (timeout in nanoseconds, Go
`time.Duration`).  The HTTP client itself is outside the model; `FireModel`
below consumes an oracle of per-attempt network outcomes. -/
structure ExternalHook where
  endpoint : String
  maxRetries : Int
  timeout : Int
deriving DecidableEq

/-- Nanoseconds per second (`time.Second`). -/
def nsPerSecond : Int := 1000000000

/-- `NewExternalHook(endpoint, maxRetries, timeout)`: an empty endpoint is a
construction-time error (nil hook); otherwise non-positive `maxRetries`
defaults to 3 and non-positive `timeout` to 10 seconds. -/
def NewExternalHook (endpoint : String) (maxRetries : Int) (timeout : Int) :
    Except String ExternalHook :=
  if endpoint = "" then .error "endpoint cannot be empty"
  else
    .ok { endpoint := endpoint
          maxRetries := if maxRetries ≤ 0 then 3 else maxRetries
          timeout := if timeout ≤ 0 then 10 * nsPerSecond else timeout }

/-- What one iteration of `Fire`'s retry loop observes: request construction
fails, the POST fails to send, or a response arrives with a status code. -/
inductive AttemptResult
  | reqError
  | sendError
  | status (code : Int)
deriving DecidableEq

/-- How `Fire` returns: nil on a 2xx response; an immediate non-nil error
when building the HTTP request fails; or the final wrap-up error around the
last attempt's failure once the retry budget is spent. -/
inductive FireResult
  | success
  | reqCreateError (attempt : Nat)
  | exhausted (last : Option (Nat × AttemptResult))
deriving DecidableEq

/-- A response status in `[200, 300)` — the loop's success test. -/
def is2xx : AttemptResult → Bool
  | .status c => decide (200 ≤ c) && decide (c < 300)
  | _ => false

/-- An outcome on which the loop records `lastErr` and retries: a send error
or a non-2xx status (a request-construction error returns instead). -/
def isRetryFailure : AttemptResult → Bool
  | .sendError => true
  | .status c => !(decide (200 ≤ c) && decide (c < 300))
  | .reqError => false

/-- The body of `ExternalHook.Fire`'s `for attempt := 0; attempt < maxRetries`
loop: `i` is the next attempt index, the middle argument the remaining
budget, and the last the recorded `lastErr`.  Returns the result together
with the total number of attempts performed.  (Backoff sleeps are real time
and not modelled; they do not affect the result.) -/
def fireLoop (oc : Nat → AttemptResult) :
    Nat → Nat → Option (Nat × AttemptResult) → FireResult × Nat
  | i, 0, lastErr => (.exhausted lastErr, i)
  | i, rem + 1, lastErr =>
    match oc i with
    | .reqError => (.reqCreateError i, i + 1)
    | .sendError => fireLoop oc (i + 1) rem (some (i, .sendError))
    | .status c =>
      if 200 ≤ c ∧ c < 300 then (.success, i + 1)
      else fireLoop oc (i + 1) rem (some (i, .status c))

/-- `ExternalHook.Fire(entry)` with attempt outcomes given by the oracle
`oc` (serializing a `LogEntry` with `json.Marshal` succeeds, so the
marshalling guard is not taken). -/
def FireModel (h : ExternalHook) (oc : Nat → AttemptResult) : FireResult × Nat :=
  fireLoop oc 0 h.maxRetries.toNat none

/-! ## Spec-modelled components -/

/-- Observable effects of one emit call, for the level-gate claim. -/
inductive Effect
  | atomicLoad | poolAcquire | formatCall | writerCall | hookFire | poolRelease
deriving DecidableEq

/-- Modelled from the spec: the Level Gate and dispatch skeleton of `emit`
(the logger core is not part of the source tree).  Per §4.1 the atomically
loaded threshold is checked before any pool acquisition; below threshold the
call performs nothing else, otherwise it acquires a record, formats, writes,
fires hooks and releases. -/
def emit (threshold : Level) (sev : Level) : List Effect :=
  .atomicLoad ::
    (if sev.toNat < threshold.toNat then []
     else [.poolAcquire, .formatCall, .writerCall, .hookFire, .poolRelease])

/-- Lifecycle states of an asynchronous logger (§4.5). -/
inductive LoggerState
  | opened | draining | closed
deriving DecidableEq

/-- Modelled from the spec: an asynchronous-mode logger — state, bounded
queue, tasks already passed to the Writer, and (as a ghost record for the
counting claim) the tasks whose enqueue was accepted. -/
structure AsyncLogger where
  st : LoggerState
  cap : Nat
  queue : List Nat
  written : List Nat
  accepted : List Nat

/-- A fresh open asynchronous logger with queue capacity `cap`. -/
def newAsyncLogger (cap : Nat) : AsyncLogger := ⟨.opened, cap, [], [], []⟩

/-- Modelled from the spec: `emit` in asynchronous mode enqueues a
self-contained task while the logger is open and the bounded queue has room;
otherwise the task is rejected (fail-fast backpressure) and nothing is
queued. -/
def enqueueTask (L : AsyncLogger) (t : Nat) : AsyncLogger :=
  if L.st = .opened ∧ L.queue.length < L.cap then
    { L with queue := L.queue ++ [t], accepted := L.accepted ++ [t] }
  else L

/-- Modelled from the spec: one Worker iteration — dequeue one task in FIFO
order, format it and pass it to the Writer. -/
def workerStep (L : AsyncLogger) : AsyncLogger :=
  match L.queue with
  | [] => L
  | t :: q => { L with queue := q, written := L.written ++ [t] }

/-- FIFO drain of the remaining queue into the written sequence. -/
def drainQueue : List Nat → List Nat → List Nat
  | w, [] => w
  | w, t :: q => drainQueue (w ++ [t]) q

/-- Modelled from the spec: `Close()` — Open→Draining→Closed; the Workers
drain every already-queued task to the Writer before the state reaches
Closed. -/
def closeLogger (L : AsyncLogger) : AsyncLogger :=
  { L with st := .closed, queue := [], written := drainQueue L.written L.queue }

/-- Interleaved producer/worker steps before `Close()`. -/
inductive LogOp
  | enq (t : Nat)
  | work

/-- Run a sequence of producer/worker operations. -/
def runOps (L : AsyncLogger) : List LogOp → AsyncLogger
  | [] => L
  | .enq t :: ops => runOps (enqueueTask L t) ops
  | .work :: ops => runOps (workerStep L) ops

/-! ## A byte-level JSON grammar

An executable parser for RFC 8259 JSON over byte lists, used to state the
validity/round-trip claims about the JSON formatter's output.  String
contents are decoded (escapes undone); numbers are kept as their literal
token bytes, which is lossless and avoids floating-point. -/

/-- JSON insignificant whitespace bytes. -/
def isWsB (b : Nat) : Bool := b == 32 || b == 9 || b == 10 || b == 13

/-- ASCII decimal digit bytes. -/
def isDigitB (b : Nat) : Bool := decide (48 ≤ b) && decide (b ≤ 57)

/-- Drop leading insignificant whitespace. -/
def skipWs : List Nat → List Nat
  | b :: r => if isWsB b then skipWs r else b :: r
  | [] => []

/-- Value of a hex digit byte (either case), if it is one. -/
def hexVal (b : Nat) : Option Nat :=
  if 48 ≤ b ∧ b ≤ 57 then some (b - 48)
  else if 97 ≤ b ∧ b ≤ 102 then some (b - 97 + 10)
  else if 65 ≤ b ∧ b ≤ 70 then some (b - 65 + 10)
  else none

/-- The byte denoted by a single-character string escape, if valid. -/
def unescapeByte (b : Nat) : Option Nat :=
  if b = 34 then some 34
  else if b = 92 then some 92
  else if b = 47 then some 47
  else if b = 98 then some 8
  else if b = 102 then some 12
  else if b = 110 then some 10
  else if b = 114 then some 13
  else if b = 116 then some 9
  else none

/-- A parsed JSON value.  Number tokens are kept as literal bytes. -/
inductive JsonVal
  | null
  | bool (b : Bool)
  | num (tok : List Nat)
  | str (s : List Nat)
  | arr (elems : List JsonVal)
  | obj (members : List (List Nat × JsonVal))

/-- Parse a string body after the opening quote, decoding escapes; raw bytes
below 0x20 are rejected, `\uXXXX` denotes byte/code `XXXX`.  The decoded
prefix accumulates reversed in `acc`. -/
def parseStrBodyAux (acc : List Nat) : List Nat → Option (List Nat × List Nat)
  | [] => none
  | b :: rest =>
    if b = 34 then some (acc.reverse, rest)
    else if b = 92 then
      match rest with
      | 117 :: h1 :: h2 :: h3 :: h4 :: rest2 =>
        (match hexVal h1, hexVal h2, hexVal h3, hexVal h4 with
         | some v1, some v2, some v3, some v4 =>
           parseStrBodyAux ((((v1 * 16 + v2) * 16 + v3) * 16 + v4) :: acc) rest2
         | _, _, _, _ => none)
      | ec :: rest2 =>
        (match unescapeByte ec with
         | some ch => parseStrBodyAux (ch :: acc) rest2
         | none => none)
      | [] => none
    else if 32 ≤ b then parseStrBodyAux (b :: acc) rest
    else none

/-- Greedily split off a run of digit bytes. -/
def takeDigits : List Nat → List Nat × List Nat
  | b :: r =>
    if isDigitB b then
      let p := takeDigits r
      (b :: p.1, p.2)
    else ([], b :: r)
  | [] => ([], [])

/-- The integer part of a JSON number: a lone `0`, or a nonzero-led digit
run. -/
def parseIntPart : List Nat → Option (List Nat × List Nat)
  | [] => none
  | b :: r =>
    if b = 48 then some ([48], r)
    else
      let p := takeDigits (b :: r)
      if p.1 = [] then none else some p

/-- The optional fraction part (`.` followed by at least one digit). -/
def parseFracPart : List Nat → Option (List Nat × List Nat)
  | [] => some ([], [])
  | b :: r =>
    if b = 46 then
      let p := takeDigits r
      if p.1 = [] then none else some (46 :: p.1, p.2)
    else some ([], b :: r)

/-- The optional exponent part (`e`/`E`, optional sign, digits). -/
def parseExpPart : List Nat → Option (List Nat × List Nat)
  | e :: r =>
    if e = 101 ∨ e = 69 then
      match r with
      | s :: r2 =>
        if s = 43 ∨ s = 45 then
          let p := takeDigits r2
          if p.1 = [] then none else some (e :: s :: p.1, p.2)
        else
          let p := takeDigits r
          if p.1 = [] then none else some (e :: p.1, p.2)
      | [] => none
    else some ([], e :: r)
  | [] => some ([], [])

/-- An unsigned JSON number token: integer part, optional fraction and
exponent, returning the literal bytes consumed. -/
def parseNumCore (l : List Nat) : Option (List Nat × List Nat) :=
  match parseIntPart l with
  | none => none
  | some (ip, l2) =>
    match parseFracPart l2 with
    | none => none
    | some (fp, l3) =>
      match parseExpPart l3 with
      | none => none
      | some (ep, l4) => some ((ip ++ fp) ++ ep, l4)

/-- Parse one complete JSON number token (optional sign then the unsigned
token), returning its literal bytes. -/
def parseNumTok (l : List Nat) : Option (List Nat × List Nat) :=
  match l with
  | [] => none
  | b :: r =>
    if b = 45 then
      match parseNumCore r with
      | some (tok, r2) => some (45 :: tok, r2)
      | none => none
    else parseNumCore (b :: r)

mutual

/-- Parse one JSON value (fuel-indexed; any fuel above the input length
suffices for inputs the grammar accepts). -/
def parseValue : Nat → List Nat → Option (JsonVal × List Nat)
  | 0, _ => none
  | fuel + 1, l =>
    match skipWs l with
    | [] => none
    | b :: r =>
      if b = 110 then
        (match r with
         | 117 :: 108 :: 108 :: r2 => some (.null, r2)
         | _ => none)
      else if b = 116 then
        (match r with
         | 114 :: 117 :: 101 :: r2 => some (.bool true, r2)
         | _ => none)
      else if b = 102 then
        (match r with
         | 97 :: 108 :: 115 :: 101 :: r2 => some (.bool false, r2)
         | _ => none)
      else if b = 34 then
        (match parseStrBodyAux [] r with
         | some (s, r2) => some (.str s, r2)
         | none => none)
      else if b = 123 then
        (match skipWs r with
         | [] => none
         | c :: r2 =>
           if c = 125 then some (.obj [], r2)
           else
             match parseMembers fuel (c :: r2) with
             | some (ms, r3) => some (.obj ms, r3)
             | none => none)
      else if b = 91 then
        (match skipWs r with
         | [] => none
         | c :: r2 =>
           if c = 93 then some (.arr [], r2)
           else
             match parseElems fuel (c :: r2) with
             | some (es, r3) => some (.arr es, r3)
             | none => none)
      else if b = 45 ∨ isDigitB b then
        (match parseNumTok (b :: r) with
         | some (tok, r2) => some (.num tok, r2)
         | none => none)
      else none

/-- Parse one or more comma-separated `"key": value` members followed by the
closing brace (the empty-object case is handled in `parseValue`). -/
def parseMembers : Nat → List Nat → Option (List (List Nat × JsonVal) × List Nat)
  | 0, _ => none
  | fuel + 1, l =>
    match skipWs l with
    | 34 :: r =>
      (match parseStrBodyAux [] r with
       | none => none
       | some (key, r1) =>
         match skipWs r1 with
         | 58 :: r2 =>
           (match parseValue fuel (skipWs r2) with
            | none => none
            | some (v, r3) =>
              match skipWs r3 with
              | 44 :: r4 =>
                (match parseMembers fuel (skipWs r4) with
                 | some (ms, r5) => some ((key, v) :: ms, r5)
                 | none => none)
              | 125 :: r4 => some ([(key, v)], r4)
              | _ => none)
         | _ => none)
    | _ => none

/-- Parse one or more comma-separated array elements followed by the closing
bracket (the empty-array case is handled in `parseValue`). -/
def parseElems : Nat → List Nat → Option (List JsonVal × List Nat)
  | 0, _ => none
  | fuel + 1, l =>
    match parseValue fuel l with
    | none => none
    | some (v, r) =>
      match skipWs r with
      | 44 :: r2 =>
        (match parseElems fuel (skipWs r2) with
         | some (es, r3) => some (v :: es, r3)
         | none => none)
      | 93 :: r2 => some ([v], r2)
      | _ => none

end

/-- A continuation that cannot extend a number token: empty, or headed by a
byte that is no digit and none of `.`, `e`, `E` (every JSON delimiter
qualifies). -/
def numDelim : List Nat → Bool
  | [] => true
  | b :: _ => !(isDigitB b || b == 46 || b == 101 || b == 69)

/-- Parse a complete JSON document: one value, then only trailing
whitespace. -/
def jsonParse (bytes : List Nat) : Option JsonVal :=
  match parseValue (bytes.length + 1) bytes with
  | some (v, r) => if skipWs r = [] then some v else none
  | none => none

/-- Lookup of an object member by key (first occurrence). -/
def lookupMember (key : List Nat) : List (List Nat × JsonVal) → Option JsonVal
  | [] => none
  | (k, v) :: ms => if k = key then some v else lookupMember key ms

/-- The JSON value `formatJSONValue` denotes for a field value: strings and
byte slices become JSON strings of the same bytes, `int`/`int64` number
tokens, booleans and nil theirs.  The widths quoted by the `default` branch
(`intN`, `uintN`, `f32`) come back as JSON *strings* of their rendered
digits or float token, not as the original value, and every error value
becomes the fixed placeholder string.  A (non-finite) `f64` is never parsed
back at all — its bare `NaN`/`+Inf`/`-Inf` token is not JSON (see the claim
C3 counterexample) and `jsonSafeValue` excludes it; the `.null` given here
is arbitrary and unreachable under that hypothesis. -/
def jsonOfValue : Value → JsonVal
  | .str s => .str s
  | .byt b => .str b
  | .int i => .num (intDec i)
  | .intN i => .str (intDec i)
  | .uintN n => .str (natDec n)
  | .f64 _ => .null
  | .f32 x => .str (f64Tok x)
  | .bool b => .bool b
  | .null => .null
  | .err _ => .str (bs "<complex-type>")

/-- Bytes that survive inside a JSON string unescaped: at least 0x20 and
neither quote nor backslash.  The formatter writes field names, the
timestamp, caller file and trace ids raw, so their JSON validity needs
exactly this of every byte. -/
def rawSafe (l : List Nat) : Bool :=
  l.all (fun b => decide (32 ≤ b) && b != 34 && b != 92)

/-! ### Member-level description of the manual JSON output -/

/-- One rendered object member: its raw key, its value's byte rendering and
the JSON value those bytes denote. -/
structure PMember where
  name : List Nat
  bytes : List Nat
  val : JsonVal

/-- `"name":` followed by the value bytes. -/
def renderPMember (m : PMember) : List Nat := ((34 :: m.name) ++ [34, 58]) ++ m.bytes

/-- `,member` for each member of a list (the comma-separated tail of an
object body). -/
def renderSep : List PMember → List Nat
  | [] => []
  | m :: ms => (44 :: renderPMember m) ++ renderSep ms

/-- Comma-separated members (first member unprefixed). -/
def renderPMembers : List PMember → List Nat
  | [] => []
  | m :: ms => renderPMember m ++ renderSep ms

/-- The field members of the `"fields"` sub-object. -/
def fieldPMs (fields : List (List Nat × Value)) : List PMember :=
  fields.map (fun p => ⟨p.1, formatJSONValue p.2, jsonOfValue p.2⟩)

/-- The complete member list of the top-level object `formatManually`
emits, in emission order. -/
def pMembers (f : JSONFormatter) (e : LogEntry) : List PMember :=
  [⟨bs "timestamp", (34 :: e.Timestamp) ++ [34], .str e.Timestamp⟩,
   ⟨bs "level_name", (34 :: e.Level.bytes) ++ [34], .str e.Level.bytes⟩,
   ⟨bs "message", (34 :: escapeJSON e.Message) ++ [34], .str e.Message⟩]
  ++ (if f.ShowPID then [⟨bs "pid", intDec e.PID, .num (intDec e.PID)⟩] else [])
  ++ (match f.ShowCaller, e.Caller with
      | true, some c =>
        [⟨bs "caller", (34 :: (c.file ++ 58 :: intDec c.line)) ++ [34],
          .str (c.file ++ 58 :: intDec c.line)⟩]
      | _, _ => [])
  ++ (if e.Fields.length > 0 then
        [⟨bs "fields", (123 :: renderPMembers (fieldPMs e.Fields)) ++ [125],
          .obj (e.Fields.map (fun p => (p.1, jsonOfValue p.2)))⟩]
      else [])
  ++ (if f.ShowTraceInfo then
        (if e.TraceID ≠ [] then [⟨bs "trace_id", (34 :: e.TraceID) ++ [34], .str e.TraceID⟩] else [])
        ++ (if e.SpanID ≠ [] then [⟨bs "span_id", (34 :: e.SpanID) ++ [34], .str e.SpanID⟩] else [])
        ++ (if e.UserID ≠ [] then [⟨bs "user_id", (34 :: e.UserID) ++ [34], .str e.UserID⟩] else [])
      else [])
  ++ (if f.EnableStackTrace ∧ e.StackTrace.length > 0 then
        [⟨bs "stack_trace", (34 :: escapeJSON e.StackTrace) ++ [34], .str e.StackTrace⟩]
      else [])

/-- The member-name/value pairs the parsed top-level object should hold. -/
def jsonMembers (f : JSONFormatter) (e : LogEntry) : List (List Nat × JsonVal) :=
  (pMembers f e).map (fun m => (m.name, m.val))

/-- What the object-member loop needs of one rendered member: a JSON-safe
raw key, value bytes that do not start with whitespace, and value bytes that
parse to the member's value at any fuel of at least `base`, before any
delimiter-headed continuation. -/
def MemberOk (base : Nat) (m : PMember) : Prop :=
  rawSafe m.name = true ∧
  (∃ b t, m.bytes = b :: t ∧ isWsB b = false) ∧
  ∀ g rest, base ≤ g → numDelim rest = true →
    parseValue g (m.bytes ++ rest) = some (m.val, rest)

/-! ## Concrete fixtures -/

/-- Byte-substring test (used to exhibit concrete formatter outputs). -/
def hasInfixBytes (pat l : List Nat) : Bool := l.tails.any (fun t => pat.isPrefixOf t)

/-- A JSON formatter configured exactly as the repository's documentation
shows for masking: `MaskSensitiveData` on, `password` sensitive,
`[MASKED]` as the mask bytes. -/
def c1Formatter : JSONFormatter :=
  { MaskSensitiveData := true
    SensitiveFields := [bs "password"]
    MaskStringBytes := bs "[MASKED]" }

/-- An entry carrying a sensitive `password` field with value `secret`. -/
def c1Entry : LogEntry :=
  { Timestamp := bs "2024-01-01T00:00:00Z"
    Level := .INFO
    Message := bs "user login"
    PID := 0, GoroutineID := [], TraceID := [], SpanID := [], UserID := []
    Caller := none, Error := none, StackTrace := []
    Fields := [(bs "password", .str (bs "secret"))] }

/-- The nine column names `CSVFormatter.formatField` treats as built-in. -/
def csvBuiltins : List (List Nat) :=
  [bs "timestamp", bs "level", bs "message", bs "pid", bs "goroutine_id",
   bs "trace_id", bs "file", bs "line", bs "error"]

/-- An entry whose single field name contains a double quote; `formatManually`
writes field names unescaped, so this name breaks the JSON framing. -/
def c3Entry : LogEntry :=
  { Timestamp := bs "t", Level := .INFO, Message := []
    PID := 0, GoroutineID := [], TraceID := [], SpanID := [], UserID := []
    Caller := none, Error := none, StackTrace := []
    Fields := [(bs "a\"b", .str (bs "v"))] }

/-- An entry whose single field value is the `float64` NaN; `formatJSONValue`
writes it as the bare token `NaN`, which is not JSON. -/
def c3NanEntry : LogEntry :=
  { Timestamp := bs "t", Level := .INFO, Message := []
    PID := 0, GoroutineID := [], TraceID := [], SpanID := [], UserID := []
    Caller := none, Error := none, StackTrace := []
    Fields := [(bs "n", .f64 .nan)] }

/-- An entry whose single field value is the `int8` (or `int16`/`int32`)
number 42; `formatJSONValue`'s `default` branch writes it quoted, so it
parses back as the JSON string `"42"`, not the number 42. -/
def c3I8Entry : LogEntry :=
  { Timestamp := bs "t", Level := .INFO, Message := []
    PID := 0, GoroutineID := [], TraceID := [], SpanID := [], UserID := []
    Caller := none, Error := none, StackTrace := []
    Fields := [(bs "n", .intN 42)] }

/-! # Theorems -/

/-- Claim C1 (code bug): evaluated at a formatter with masking configured and
an entry carrying the sensitive field `password = "secret"`, the non-pretty
`Format` path emits `"password":"secret"` verbatim and never the configured
mask — while the masking machinery the source does contain (`processFields`,
reachable only from the never-called `prepareOutputEntry`) would have
replaced the value by the mask bytes. -/
theorem format_bypasses_masking :
    hasInfixBytes (bs "\"password\":\"secret\"") (formatManually c1Formatter c1Entry) = true ∧
    hasInfixBytes (bs "[MASKED]") (formatManually c1Formatter c1Entry) = false ∧
    processFields c1Formatter c1Entry.Fields = [(bs "password", .byt (bs "[MASKED]"))] := by
  decide

/-- Claim C2 (spec-modelled level gate): when the threshold is `s2` and
`s1 < s2`, an emit at `s1` performs only the atomic threshold load — in
particular zero Writer calls and zero pool acquisitions. -/
theorem emit_below_threshold (s1 s2 : Level) (h : s1.toNat < s2.toNat) :
    emit s2 s1 = [.atomicLoad] ∧
    (emit s2 s1).count .writerCall = 0 ∧
    (emit s2 s1).count .poolAcquire = 0 := by
  have he : emit s2 s1 = [.atomicLoad] := by simp [emit, h]
  refine ⟨he, ?_, ?_⟩ <;> rw [he] <;> decide

/-- Witness for C2 at `s1 = DEBUG`, `s2 = INFO`. -/
theorem emit_below_threshold_witness :
    Level.DEBUG.toNat < Level.INFO.toNat ∧ emit .INFO .DEBUG = [.atomicLoad] :=
  ⟨by decide, (emit_below_threshold .DEBUG .INFO (by decide)).1⟩

/-- The spec-modelled queue drain appends the queued tasks, in order, to the
written sequence. -/
theorem drainQueue_eq (q : List Nat) : ∀ w, drainQueue w q = w ++ q := by
  induction q with
  | nil => intro w; simp [drainQueue]
  | cons t q ih => intro w; rw [drainQueue, ih]; simp

/-- Invariant of the asynchronous-logger model: the tasks already written
followed by the tasks still queued are exactly the accepted enqueues. -/
theorem runOps_balance (ops : List LogOp) :
    ∀ L : AsyncLogger, L.written ++ L.queue = L.accepted →
      (runOps L ops).written ++ (runOps L ops).queue = (runOps L ops).accepted := by
  induction ops with
  | nil => intro L h; simpa [runOps] using h
  | cons op ops ih =>
    intro L h
    cases op with
    | enq t =>
      rw [runOps]
      apply ih
      unfold enqueueTask
      split
      · simp [← h]
      · exact h
    | work =>
      rw [runOps]
      apply ih
      unfold workerStep
      cases hq : L.queue with
      | nil => simpa [hq] using h
      | cons x q => simp [← h, hq]

/-- Claim C4 (spec-modelled close/drain): after any interleaving of accepted
enqueues and worker steps followed by `Close()`, the sequence of tasks passed
to the Writer is exactly the sequence of accepted enqueues — so by counting,
every task enqueued before `Close()` is written exactly once, none lost and
none duplicated. -/
theorem close_writes_each_task_once (cap : Nat) (ops : List LogOp) :
    (closeLogger (runOps (newAsyncLogger cap) ops)).written
      = (runOps (newAsyncLogger cap) ops).accepted ∧
    ∀ t, ((closeLogger (runOps (newAsyncLogger cap) ops)).written.count t
      = (runOps (newAsyncLogger cap) ops).accepted.count t) := by
  have hbal := runOps_balance ops (newAsyncLogger cap) (by simp [newAsyncLogger])
  have hw : (closeLogger (runOps (newAsyncLogger cap) ops)).written
      = (runOps (newAsyncLogger cap) ops).accepted := by
    unfold closeLogger
    rw [drainQueue_eq]
    exact hbal
  exact ⟨hw, fun t => by rw [hw]⟩

/-- Integers in int64 range are fixed points of the two's-complement wrap. -/
theorem wrap64_eq (m : Int) (h1 : -(2 ^ 63) ≤ m) (h2 : m < 2 ^ 63) : wrap64 m = m := by
  unfold wrap64
  rw [Int.emod_eq_of_lt (by omega) (by omega)]
  omega

/-- `ShouldLog` at rate at most 1: always true, state untouched. -/
theorem shouldLog_mk_low (r c : Int) (hr : r ≤ 1) :
    ShouldLog ⟨r, c⟩ = (true, ⟨r, c⟩) := by
  unfold ShouldLog
  rw [show (⟨r, c⟩ : LogSampler).rate = r from rfl, if_pos hr]

/-- `ShouldLog` at rate above 1: increments (with wrap) and tests
divisibility. -/
theorem shouldLog_mk_high (r c : Int) (hr : 1 < r) :
    ShouldLog ⟨r, c⟩ = (Int.tmod (wrap64 (c + 1)) r == 0, ⟨r, wrap64 (c + 1)⟩) := by
  unfold ShouldLog
  rw [show (⟨r, c⟩ : LogSampler).rate = r from rfl,
      show (⟨r, c⟩ : LogSampler).counter = c from rfl, if_neg (by omega)]

/-- With rate at most 1 the sampler state never changes. -/
theorem runShouldLog_low (r : Int) (hr : r ≤ 1) (j : Nat) :
    runShouldLog (NewSampler r) j = NewSampler r := by
  induction j with
  | zero => rfl
  | succ n ih =>
    rw [runShouldLog, ih, show NewSampler r = (⟨r, 0⟩ : LogSampler) from rfl,
        shouldLog_mk_low r 0 hr]

/-- With rate above 1 the counter after `j` calls is exactly `j`, below the
int64 wrap point. -/
theorem runShouldLog_state (r : Int) (hr : 1 < r) (j : Nat) (hj : (j : Int) < 2 ^ 63) :
    runShouldLog (NewSampler r) j = ⟨r, (j : Int)⟩ := by
  induction j with
  | zero => rfl
  | succ n ih =>
    have hn : ((n : Nat) : Int) < 2 ^ 63 := by push_cast at hj ⊢; omega
    rw [runShouldLog, ih hn, shouldLog_mk_high r _ hr,
        wrap64_eq _ (by omega) (by push_cast at hj; omega)]
    have hc : ((n : Int) + 1) = (((n + 1 : Nat)) : Int) := by push_cast; ring
    rw [hc]

/-- Claim C5: a sampler with rate at most 1 logs every call; with rate above
1 the `k`-th single-threaded call (from 1, below the int64 wrap point)
returns true exactly when `k` is a multiple of the rate; and `Log` forwards
to the wrapped processor exactly when `ShouldLog` returns true. -/
theorem sampler_spec (r : Int) (k : Nat) (h1 : 1 ≤ k) (hk : (k : Int) < 2 ^ 63) :
    (r ≤ 1 → kthShouldLog (NewSampler r) k = true) ∧
    (1 < r → (kthShouldLog (NewSampler r) k = true ↔ r ∣ (k : Int))) ∧
    (∀ s ev sent, (SamplerLog s ev sent).2 = if (ShouldLog s).1 then sent ++ [ev] else sent) := by
  refine ⟨?_, ?_, fun s ev sent => rfl⟩
  · intro hr
    unfold kthShouldLog
    rw [runShouldLog_low r hr, show NewSampler r = (⟨r, 0⟩ : LogSampler) from rfl,
        shouldLog_mk_low r 0 hr]
  · intro hr
    unfold kthShouldLog
    have hlt : ((k - 1 : Nat) : Int) < 2 ^ 63 := by
      have : ((k - 1 : Nat) : Int) ≤ (k : Int) := by push_cast; omega
      omega
    rw [runShouldLog_state r hr (k - 1) hlt, shouldLog_mk_high r _ hr]
    have hc : ((k - 1 : Nat) : Int) + 1 = (k : Int) := by omega
    rw [hc, wrap64_eq _ (by omega) (by omega),
        Int.tmod_eq_emod (by omega) (by omega)]
    constructor
    · intro h
      exact Int.dvd_of_emod_eq_zero (by simpa using h)
    · intro h
      simp [Int.emod_eq_zero_of_dvd h]

/-- Witness for C5 at rate 3, call 6. -/
theorem sampler_spec_witness :
    (1 ≤ 6 ∧ ((6 : Nat) : Int) < 2 ^ 63) ∧
    (kthShouldLog (NewSampler 3) 6 = true ↔ (3 : Int) ∣ ((6 : Nat) : Int)) :=
  ⟨⟨by decide, by decide⟩, (sampler_spec 3 6 (by decide) (by decide)).2.1 (by decide)⟩

/-- Claim C6: `CSVFormatter.Format` writes exactly one CSV record whose
columns are, in order, the rendered values of the configured `FieldOrder`
names — one column per name, built-in names rendered from the entry's
dedicated data, a name that is neither built-in nor an entry field rendering
as an empty column, and an entry field rendering through `util.FormatValue`
with no width limit.  Nothing outside `FieldOrder` is emitted. -/
theorem csvFormat_spec (f : CSVFormatter) (e : LogEntry) :
    csvFormat f e = csvEncode (f.FieldOrder.map (fun n => formatField f n e)) ∧
    (f.FieldOrder.map (fun n => formatField f n e)).length = f.FieldOrder.length ∧
    (∀ n, n ∉ csvBuiltins → e.Fields.lookup n = none → formatField f n e = []) ∧
    (∀ n v, n ∉ csvBuiltins → e.Fields.lookup n = some v →
       formatField f n e = FormatValue v 0) ∧
    (formatField f (bs "message") e = e.Message) ∧
    (formatField f (bs "level") e = e.Level.bytes) := by
  refine ⟨rfl, by simp, ?_, ?_, ?_, ?_⟩
  · intro n hn hl
    simp only [csvBuiltins, List.mem_cons, List.not_mem_nil, or_false, not_or] at hn
    obtain ⟨h1, h2, h3, h4, h5, h6, h7, h8, h9⟩ := hn
    simp [formatField, h1, h2, h3, h4, h5, h6, h7, h8, h9, hl]
  · intro n v hn hl
    simp only [csvBuiltins, List.mem_cons, List.not_mem_nil, or_false, not_or] at hn
    obtain ⟨h1, h2, h3, h4, h5, h6, h7, h8, h9⟩ := hn
    simp [formatField, h1, h2, h3, h4, h5, h6, h7, h8, h9, hl]
  · rfl
  · rfl

/-- Witness for C6: a non-built-in name absent from the entry yields an
empty column. -/
theorem csvFormat_spec_witness :
    (bs "user" ∉ csvBuiltins) ∧
    formatField { FieldOrder := [bs "user"] } (bs "user")
      { Timestamp := [], Level := .INFO, Message := [], PID := 0, GoroutineID := [],
        TraceID := [], SpanID := [], UserID := [], Caller := none, Error := none,
        StackTrace := [], Fields := [] } = [] := by
  refine ⟨by decide, ?_⟩
  exact (csvFormat_spec { FieldOrder := [bs "user"] } _).2.2.1 (bs "user") (by decide) (by rfl)

/-- Claim C7: `NewExternalHook` errors (with a nil hook) exactly on an empty
endpoint; on any non-empty endpoint it returns a hook with non-positive
`maxRetries` replaced by 3 and non-positive `timeout` by 10 seconds. -/
theorem newExternalHook_spec (ep : String) (mr t : Int) :
    ((∃ msg, NewExternalHook ep mr t = .error msg) ↔ ep = "") ∧
    (ep ≠ "" →
      NewExternalHook ep mr t =
        .ok ⟨ep, if mr ≤ 0 then 3 else mr, if t ≤ 0 then 10 * nsPerSecond else t⟩) := by
  constructor
  · constructor
    · rintro ⟨msg, h⟩
      by_contra hne
      simp [NewExternalHook, hne] at h
    · intro h
      subst h
      exact ⟨_, rfl⟩
  · intro h
    simp [NewExternalHook, h]

/-- Witness for C7 at a non-empty endpoint with both defaults substituted. -/
theorem newExternalHook_spec_witness :
    ("x" : String) ≠ "" ∧ NewExternalHook "x" 0 (-1) = .ok ⟨"x", 3, 10 * nsPerSecond⟩ :=
  ⟨by decide, by
    have h := (newExternalHook_spec "x" 0 (-1)).2 (by decide)
    simpa using h⟩

/-- Claim C8 counterexample: an `ErrorAppender` error bypasses the width
logic entirely — at `maxWidth = 1` with three bytes of content `a b`,
`FormatValue` writes `a b` unchanged instead of the claimed one byte plus
`"..."` (and without quotes despite the space). -/
theorem formatValue_truncation_cex :
    FormatValue (.err ⟨some (bs "a b"), bs "a b"⟩) 1 = bs "a b" ∧
    FormatValue (.err ⟨some (bs "a b"), bs "a b"⟩) 1 ≠
      (renderContent (.err ⟨some (bs "a b"), bs "a b"⟩)).take (1 : Int).toNat ++ bs "..." := by
  decide

/-- For every value that is not an `ErrorAppender` error, `FormatValue` is
the width/quote logic applied to the value's rendered content. -/
theorem formatValue_eq_of_not_appender (v : Value) (maxWidth : Int)
    (hv : isAppendErr v = false) :
    FormatValue v maxWidth =
      (if 0 < maxWidth ∧ maxWidth < ((renderContent v).length : Int) then
         (renderContent v).take maxWidth.toNat ++ bs "..."
       else if (renderContent v).contains 32 then (34 :: renderContent v) ++ [34]
       else renderContent v) := by
  cases v with
  | err e =>
    obtain ⟨app, text⟩ := e
    cases app with
    | some a => simp [isAppendErr] at hv
    | none => rfl
  | str s => rfl
  | byt b => rfl
  | int i => rfl
  | intN i => rfl
  | uintN n => rfl
  | f64 x => rfl
  | f32 x => rfl
  | bool b => rfl
  | null => rfl

/-- Claim C8 as amended: for every value other than an `ErrorAppender` error
and every `maxWidth > 0`, content longer than `maxWidth` is written as its
first `maxWidth` bytes plus `"..."` and nothing else; otherwise the content
is wrapped in double quotes exactly when it contains a space byte. -/
theorem formatValue_spec (v : Value) (maxWidth : Int)
    (hv : isAppendErr v = false) (hw : 0 < maxWidth) :
    (maxWidth < ((renderContent v).length : Int) →
       FormatValue v maxWidth = (renderContent v).take maxWidth.toNat ++ bs "...") ∧
    (((renderContent v).length : Int) ≤ maxWidth →
       FormatValue v maxWidth =
         if (renderContent v).contains 32 then (34 :: renderContent v) ++ [34]
         else renderContent v) := by
  rw [formatValue_eq_of_not_appender v maxWidth hv]
  constructor <;> intro h
  · rw [if_pos ⟨hw, h⟩]
  · rw [if_neg (by omega)]

/-- Witness for C8 at the string `abcd`, `maxWidth = 2`. -/
theorem formatValue_spec_witness :
    isAppendErr (.str (bs "abcd")) = false ∧ (0 : Int) < 2 ∧
    FormatValue (.str (bs "abcd")) 2 = bs "ab..." := by
  refine ⟨by decide, by decide, ?_⟩
  have h := (formatValue_spec (.str (bs "abcd")) 2 (by decide) (by decide)).1 (by decide)
  simpa using h

/-- Claim C9: `CSVFormatter.Format` never reads `IncludeHeader` — the output
bytes are identical whatever its value, so no header row is ever emitted. -/
theorem csvFormat_ignores_includeHeader (h1 h2 : Bool) (fo : List (List Nat))
    (ts : List Nat) (e : LogEntry) :
    csvFormat ⟨h1, fo, ts⟩ e = csvFormat ⟨h2, fo, ts⟩ e := rfl

/-- A 2xx status satisfies the loop's success test. -/
theorem is2xx_status_true {c : Int} (h : 200 ≤ c ∧ c < 300) : is2xx (.status c) = true := by
  simp [is2xx]; omega

/-- A non-2xx status fails the loop's success test. -/
theorem is2xx_status_false {c : Int} (h : ¬(200 ≤ c ∧ c < 300)) : is2xx (.status c) = false := by
  simp [is2xx]; omega

/-- A non-2xx status is recorded and retried. -/
theorem retryFailure_status_true {c : Int} (h : ¬(200 ≤ c ∧ c < 300)) :
    isRetryFailure (.status c) = true := by
  simp [isRetryFailure]; omega

/-- A retried outcome is never a success. -/
theorem retryFailure_not_2xx {a : AttemptResult} (h : isRetryFailure a = true) :
    is2xx a = false := by
  cases a with
  | reqError => simp [isRetryFailure] at h
  | sendError => rfl
  | status c =>
    simp [isRetryFailure] at h
    simp [is2xx]
    omega

/-- The retry loop performs at least the attempts already counted and at
most the remaining budget more. -/
theorem fireLoop_bounds (oc : Nat → AttemptResult) :
    ∀ (rem i : Nat) (le : Option (Nat × AttemptResult)),
      i ≤ (fireLoop oc i rem le).2 ∧ (fireLoop oc i rem le).2 ≤ i + rem := by
  intro rem
  induction rem with
  | zero => intro i le; simp [fireLoop]
  | succ rem ih =>
    intro i le
    cases hoc : oc i with
    | reqError => simp [fireLoop, hoc]
    | sendError =>
      have h := ih (i + 1) (some (i, .sendError))
      simp only [fireLoop, hoc]
      omega
    | status c =>
      by_cases h2 : 200 ≤ c ∧ c < 300
      · simp [fireLoop, hoc, if_pos h2]
      · have h := ih (i + 1) (some (i, .status c))
        simp only [fireLoop, hoc, if_neg h2]
        omega

/-- Every attempt strictly before the loop's last performed attempt observed
a retried failure. -/
theorem fireLoop_mid_failures (oc : Nat → AttemptResult) :
    ∀ (rem i : Nat) (le : Option (Nat × AttemptResult)) (j : Nat),
      i ≤ j → j + 1 < (fireLoop oc i rem le).2 → isRetryFailure (oc j) = true := by
  intro rem
  induction rem with
  | zero =>
    intro i le j hij hj
    simp [fireLoop] at hj
    omega
  | succ rem ih =>
    intro i le j hij hj
    cases hoc : oc i with
    | reqError =>
      simp [fireLoop, hoc] at hj
      omega
    | sendError =>
      rw [show fireLoop oc i (rem + 1) le = fireLoop oc (i + 1) rem (some (i, .sendError)) by
        simp [fireLoop, hoc]] at hj
      rcases Nat.eq_or_lt_of_le hij with rfl | hlt
      · rw [hoc]; rfl
      · exact ih (i + 1) _ j hlt hj
    | status c =>
      by_cases h2 : 200 ≤ c ∧ c < 300
      · simp [fireLoop, hoc, if_pos h2] at hj
        omega
      · rw [show fireLoop oc i (rem + 1) le = fireLoop oc (i + 1) rem (some (i, .status c)) by
          simp [fireLoop, hoc, if_neg h2]] at hj
        rcases Nat.eq_or_lt_of_le hij with rfl | hlt
        · rw [hoc]; exact retryFailure_status_true h2
        · exact ih (i + 1) _ j hlt hj

/-- The loop succeeds exactly when it performed at least one attempt and the
last performed attempt received a 2xx status. -/
theorem fireLoop_success_iff (oc : Nat → AttemptResult) :
    ∀ (rem i : Nat) (le : Option (Nat × AttemptResult)),
      ((fireLoop oc i rem le).1 = .success ↔
        (i < (fireLoop oc i rem le).2 ∧ is2xx (oc ((fireLoop oc i rem le).2 - 1)) = true)) := by
  intro rem
  induction rem with
  | zero =>
    intro i le
    simp [fireLoop]
  | succ rem ih =>
    intro i le
    cases hoc : oc i with
    | reqError =>
      simp [fireLoop, hoc, is2xx]
    | sendError =>
      rw [show fireLoop oc i (rem + 1) le = fireLoop oc (i + 1) rem (some (i, .sendError)) by
        simp [fireLoop, hoc]]
      have hb := fireLoop_bounds oc rem (i + 1) (some (i, .sendError))
      rcases Nat.eq_or_lt_of_le hb.1 with heq | hlt
      · constructor
        · intro hs
          have := (ih (i + 1) (some (i, .sendError))).mp hs
          omega
        · rintro ⟨hi, h2xx⟩
          rw [← heq] at h2xx
          simp only [Nat.add_sub_cancel] at h2xx
          rw [hoc] at h2xx
          simp [is2xx] at h2xx
      · constructor
        · intro hs
          have h := (ih (i + 1) (some (i, .sendError))).mp hs
          exact ⟨by omega, h.2⟩
        · rintro ⟨hi, h2xx⟩
          exact (ih (i + 1) (some (i, .sendError))).mpr ⟨hlt, h2xx⟩
    | status c =>
      by_cases h2 : 200 ≤ c ∧ c < 300
      · rw [show fireLoop oc i (rem + 1) le = (.success, i + 1) by
          simp [fireLoop, hoc, if_pos h2]]
        simp [hoc, is2xx_status_true h2]
      · rw [show fireLoop oc i (rem + 1) le = fireLoop oc (i + 1) rem (some (i, .status c)) by
          simp [fireLoop, hoc, if_neg h2]]
        have hb := fireLoop_bounds oc rem (i + 1) (some (i, .status c))
        rcases Nat.eq_or_lt_of_le hb.1 with heq | hlt
        · constructor
          · intro hs
            have := (ih (i + 1) (some (i, .status c))).mp hs
            omega
          · rintro ⟨hi, h2xx⟩
            rw [← heq] at h2xx
            simp only [Nat.add_sub_cancel] at h2xx
            rw [hoc, is2xx_status_false h2] at h2xx
            exact absurd h2xx (by simp)
        · constructor
          · intro hs
            have h := (ih (i + 1) (some (i, .status c))).mp hs
            exact ⟨by omega, h.2⟩
          · rintro ⟨hi, h2xx⟩
            exact (ih (i + 1) (some (i, .status c))).mpr ⟨hlt, h2xx⟩

/-- When the loop returns without success after at least one attempt, the
last performed attempt did not receive a 2xx status. -/
theorem fireLoop_fail_last (oc : Nat → AttemptResult) :
    ∀ (rem i : Nat) (le : Option (Nat × AttemptResult)),
      (fireLoop oc i rem le).1 ≠ .success → i < (fireLoop oc i rem le).2 →
      is2xx (oc ((fireLoop oc i rem le).2 - 1)) = false := by
  intro rem
  induction rem with
  | zero =>
    intro i le hns hlt
    simp [fireLoop] at hlt
  | succ rem ih =>
    intro i le hns hlt
    cases hoc : oc i with
    | reqError =>
      rw [show fireLoop oc i (rem + 1) le = (.reqCreateError i, i + 1) by
        simp [fireLoop, hoc]]
      simp only [Nat.add_sub_cancel]
      rw [hoc]
      rfl
    | sendError =>
      rw [show fireLoop oc i (rem + 1) le = fireLoop oc (i + 1) rem (some (i, .sendError)) by
        simp [fireLoop, hoc]] at hns hlt ⊢
      have hb := fireLoop_bounds oc rem (i + 1) (some (i, .sendError))
      rcases Nat.eq_or_lt_of_le hb.1 with heq | hl
      · rw [← heq]
        simp only [Nat.add_sub_cancel]
        rw [hoc]
        rfl
      · exact ih (i + 1) _ hns hl
    | status c =>
      by_cases h2 : 200 ≤ c ∧ c < 300
      · exact absurd (by simp [fireLoop, hoc, if_pos h2]) hns
      · rw [show fireLoop oc i (rem + 1) le = fireLoop oc (i + 1) rem (some (i, .status c)) by
          simp [fireLoop, hoc, if_neg h2]] at hns hlt ⊢
        have hb := fireLoop_bounds oc rem (i + 1) (some (i, .status c))
        rcases Nat.eq_or_lt_of_le hb.1 with heq | hl
        · rw [← heq]
          simp only [Nat.add_sub_cancel]
          rw [hoc]
          exact is2xx_status_false h2
        · exact ih (i + 1) _ hns hl

/-- When every attempt in the budget observes a retried failure, the loop
spends the whole budget and wraps the last attempt's failure. -/
theorem fireLoop_exhausted (oc : Nat → AttemptResult) :
    ∀ (rem i : Nat) (le : Option (Nat × AttemptResult)),
      (∀ j, i ≤ j → j < i + rem → isRetryFailure (oc j) = true) → 0 < rem →
      fireLoop oc i rem le = (.exhausted (some (i + rem - 1, oc (i + rem - 1))), i + rem) := by
  intro rem
  induction rem with
  | zero => intro i le _ h0; omega
  | succ rem ih =>
    intro i le hall _
    have hfi : isRetryFailure (oc i) = true := hall i (by omega) (by omega)
    cases hoc : oc i with
    | reqError => rw [hoc] at hfi; simp [isRetryFailure] at hfi
    | sendError =>
      rw [show fireLoop oc i (rem + 1) le = fireLoop oc (i + 1) rem (some (i, .sendError)) by
        simp [fireLoop, hoc]]
      cases rem with
      | zero =>
        simp [fireLoop, hoc]
      | succ rem' =>
        rw [ih (i + 1) (some (i, .sendError)) (fun j hj hj2 => hall j (by omega) (by omega))
            (by omega)]
        have h1 : i + 1 + (rem' + 1) = i + (rem' + 1 + 1) := by omega
        rw [h1]
    | status c =>
      by_cases h2 : 200 ≤ c ∧ c < 300
      · rw [hoc] at hfi
        have hcontra := retryFailure_not_2xx hfi
        rw [is2xx_status_true h2] at hcontra
        exact absurd hcontra (by simp)
      · rw [show fireLoop oc i (rem + 1) le = fireLoop oc (i + 1) rem (some (i, .status c)) by
          simp [fireLoop, hoc, if_neg h2]]
        cases rem with
        | zero =>
          simp [fireLoop, hoc]
        | succ rem' =>
          rw [ih (i + 1) (some (i, .status c)) (fun j hj hj2 => hall j (by omega) (by omega))
              (by omega)]
          have h1 : i + 1 + (rem' + 1) = i + (rem' + 1 + 1) := by omega
          rw [h1]

/-- Claim C10: `Fire` with a positive retry budget performs at most
`maxRetries` attempts; it returns nil exactly when some performed attempt
received a status in `[200, 300)`; and when every attempt in the budget
fails, it spends the whole budget and returns a non-nil error wrapping the
last attempt's failure. -/
theorem fire_spec (h : ExternalHook) (oc : Nat → AttemptResult) (hr : 0 < h.maxRetries) :
    (FireModel h oc).2 ≤ h.maxRetries.toNat ∧
    ((FireModel h oc).1 = .success ↔ ∃ i, i < (FireModel h oc).2 ∧ is2xx (oc i) = true) ∧
    ((∀ i, i < h.maxRetries.toNat → isRetryFailure (oc i) = true) →
       FireModel h oc =
         (.exhausted (some (h.maxRetries.toNat - 1, oc (h.maxRetries.toNat - 1))),
          h.maxRetries.toNat) ∧ (FireModel h oc).1 ≠ .success) := by
  have hb := fireLoop_bounds oc h.maxRetries.toNat 0 none
  refine ⟨by simpa [FireModel] using hb.2, ?_, ?_⟩
  · unfold FireModel
    constructor
    · intro hs
      have hx := (fireLoop_success_iff oc h.maxRetries.toNat 0 none).mp hs
      exact ⟨(fireLoop oc 0 h.maxRetries.toNat none).2 - 1, by omega, hx.2⟩
    · rintro ⟨i, hi, h2xx⟩
      by_contra hns
      rcases Nat.lt_or_ge (i + 1) (fireLoop oc 0 h.maxRetries.toNat none).2 with hmid | hlast
      · have hf := fireLoop_mid_failures oc h.maxRetries.toNat 0 none i (by omega) hmid
        rw [retryFailure_not_2xx hf] at h2xx
        exact absurd h2xx (by simp)
      · have hieq : i = (fireLoop oc 0 h.maxRetries.toNat none).2 - 1 := by omega
        have hf := fireLoop_fail_last oc h.maxRetries.toNat 0 none hns (by omega)
        rw [hieq, hf] at h2xx
        exact absurd h2xx (by simp)
  · intro hall
    have h0 : 0 < h.maxRetries.toNat := by omega
    have he := fireLoop_exhausted oc h.maxRetries.toNat 0 none
      (fun j _ hj2 => hall j (by omega)) h0
    unfold FireModel
    rw [show (0 : Nat) + h.maxRetries.toNat = h.maxRetries.toNat from by omega] at he
    refine ⟨he, ?_⟩
    rw [he]
    simp

/-- Witness for C10: two attempts, both status 500 — the loop spends the
budget and wraps the second attempt's failure. -/
theorem fire_spec_witness :
    (0 : Int) < (2 : Int) ∧
    (∀ i, i < Int.toNat 2 → isRetryFailure ((fun _ => AttemptResult.status 500) i) = true) ∧
    FireModel ⟨"u", 2, 1⟩ (fun _ => .status 500)
      = (.exhausted (some (1, .status 500)), 2) := by
  refine ⟨by decide, by decide, ?_⟩
  have hw := ((fire_spec ⟨"u", 2, 1⟩ (fun _ => .status 500) (by decide)).2.2 (by decide)).1
  simpa using hw

/-! ### String codec lemmas -/

/-- The manual hex digit decodes to its value. -/
theorem hexVal_hexDigit (d : Nat) (hd : d < 16) : hexVal (hexDigit d) = some d := by
  interval_cases d <;> decide

/-- A JSON-safe byte is consumed raw. -/
theorem parseStrBodyAux_raw (b : Nat) (hb : 32 ≤ b) (h34 : b ≠ 34) (h92 : b ≠ 92)
    (acc rest : List Nat) :
    parseStrBodyAux acc (b :: rest) = parseStrBodyAux (b :: acc) rest := by
  rw [parseStrBodyAux.eq_def]
  simp [h34, h92, hb]

/-- A closing quote ends the string body. -/
theorem parseStrBodyAux_close (acc rest : List Nat) :
    parseStrBodyAux acc (34 :: rest) = some (acc.reverse, rest) := by
  rw [parseStrBodyAux.eq_def]
  simp

/-- Parsing one escaped byte undoes `escByte`. -/
theorem parseStrBodyAux_esc (b : Nat) (acc rest : List Nat) :
    parseStrBodyAux acc (escByte b ++ rest) = parseStrBodyAux (b :: acc) rest := by
  by_cases h34 : b = 34
  · subst h34
    rw [show escByte 34 ++ rest = 92 :: 34 :: rest from rfl, parseStrBodyAux.eq_def]
    simp [unescapeByte]
  by_cases h92 : b = 92
  · subst h92
    rw [show escByte 92 ++ rest = 92 :: 92 :: rest from rfl, parseStrBodyAux.eq_def]
    simp [unescapeByte]
  by_cases h8 : b = 8
  · subst h8
    rw [show escByte 8 ++ rest = 92 :: 98 :: rest from rfl, parseStrBodyAux.eq_def]
    simp [unescapeByte]
  by_cases h12 : b = 12
  · subst h12
    rw [show escByte 12 ++ rest = 92 :: 102 :: rest from rfl, parseStrBodyAux.eq_def]
    simp [unescapeByte]
  by_cases h10 : b = 10
  · subst h10
    rw [show escByte 10 ++ rest = 92 :: 110 :: rest from rfl, parseStrBodyAux.eq_def]
    simp [unescapeByte]
  by_cases h13 : b = 13
  · subst h13
    rw [show escByte 13 ++ rest = 92 :: 114 :: rest from rfl, parseStrBodyAux.eq_def]
    simp [unescapeByte]
  by_cases h9 : b = 9
  · subst h9
    rw [show escByte 9 ++ rest = 92 :: 116 :: rest from rfl, parseStrBodyAux.eq_def]
    simp [unescapeByte]
  by_cases hlt : b < 32
  · rw [show escByte b = [92, 117, 48, 48, hexDigit (b / 16), hexDigit (b % 16)] by
      simp [escByte, h34, h92, h8, h12, h10, h13, h9, hlt]]
    have g16a : b / 16 < 16 := by omega
    have g16b : b % 16 < 16 := by omega
    rw [show ([92, 117, 48, 48, hexDigit (b / 16), hexDigit (b % 16)] : List Nat) ++ rest
        = 92 :: 117 :: 48 :: 48 :: hexDigit (b / 16) :: hexDigit (b % 16) :: rest from rfl,
      parseStrBodyAux.eq_def]
    simp only [hexVal_hexDigit _ g16a, hexVal_hexDigit _ g16b]
    norm_num [hexVal]
    rw [show (b / 16) * 16 + b % 16 = b from by omega]
  · rw [show escByte b = [b] by simp [escByte, h34, h92, h8, h12, h10, h13, h9, hlt]]
    exact parseStrBodyAux_raw b (by omega) h34 h92 acc rest

/-- The string codec round-trip: an escaped body followed by the closing
quote parses back to the original bytes. -/
theorem parseStrBody_escape (s : List Nat) :
    ∀ acc rest, parseStrBodyAux acc (escapeJSON s ++ 34 :: rest)
      = some (acc.reverse ++ s, rest) := by
  induction s with
  | nil =>
    intro acc rest
    simp [escapeJSON, parseStrBodyAux_close]
  | cons b s ih =>
    intro acc rest
    rw [show escapeJSON (b :: s) = escByte b ++ escapeJSON s from by
        simp [escapeJSON, List.flatMap_cons],
      List.append_assoc, parseStrBodyAux_esc, ih]
    simp

/-- A raw JSON-safe byte sequence parses back to itself. -/
theorem parseStrBody_raw (s : List Nat) (hs : rawSafe s = true) :
    ∀ acc rest, parseStrBodyAux acc (s ++ 34 :: rest) = some (acc.reverse ++ s, rest) := by
  induction s with
  | nil =>
    intro acc rest
    simp [parseStrBodyAux_close]
  | cons b s ih =>
    intro acc rest
    simp only [rawSafe, List.all_cons, Bool.and_eq_true, bne_iff_ne, decide_eq_true_eq] at hs
    obtain ⟨⟨⟨hb, h34⟩, h92⟩, hrest⟩ := hs
    rw [List.cons_append, parseStrBodyAux_raw b hb h34 h92,
      ih (by simpa [rawSafe] using hrest)]
    simp

/-! ### Number codec lemmas -/

theorem natDecAux_spec (n : Nat) :
    ∀ f acc, n < f → natDecAux f n acc = natDec n ++ acc := by
  induction n using Nat.strongRecOn with
  | ind n ih =>
    intro f acc hf
    match f, hf with
    | f' + 1, hf =>
      by_cases h : n < 10
      · rw [natDecAux.eq_def]
        simp only [if_pos h]
        rw [show natDec n = [48 + n % 10] from by
          rw [natDec, natDecAux.eq_def]; simp [h]]
        rfl
      · rw [natDecAux.eq_def]
        simp only [if_neg h]
        rw [ih (n / 10) (by omega) f' ((48 + n % 10) :: acc) (by omega)]
        rw [show natDec n = natDec (n / 10) ++ [48 + n % 10] from by
          rw [natDec, natDecAux.eq_def]
          simp only [if_neg h]
          rw [ih (n / 10) (by omega) n ([48 + n % 10]) (by omega)]]
        simp

theorem natDec_lt10 (n : Nat) (h : n < 10) : natDec n = [48 + n] := by
  rw [natDec, natDecAux.eq_def]
  simp [h, Nat.mod_eq_of_lt h]

theorem natDec_ge10 (n : Nat) (h : ¬ n < 10) :
    natDec n = natDec (n / 10) ++ [48 + n % 10] := by
  rw [natDec, natDecAux.eq_def]
  simp only [if_neg h]
  rw [natDecAux_spec (n / 10) n ([48 + n % 10]) (by omega)]

theorem natDec_digits (n : Nat) : ∀ b ∈ natDec n, 48 ≤ b ∧ b ≤ 57 := by
  induction n using Nat.strongRecOn with
  | ind n ih =>
    by_cases h : n < 10
    · rw [natDec_lt10 n h]
      intro b hb
      simp at hb
      omega
    · rw [natDec_ge10 n h]
      intro b hb
      rw [List.mem_append] at hb
      rcases hb with hb | hb
      · exact ih (n / 10) (by omega) b hb
      · simp at hb
        have := Nat.mod_lt n (show 0 < 10 by omega)
        omega

theorem natDec_ne_nil (n : Nat) : natDec n ≠ [] := by
  by_cases h : n < 10
  · rw [natDec_lt10 n h]; simp
  · rw [natDec_ge10 n h]; simp

theorem natDec_head_digit (n : Nat) :
    ∃ c t, natDec n = c :: t ∧ 48 ≤ c ∧ c ≤ 57 ∧ (1 ≤ n → 49 ≤ c) := by
  induction n using Nat.strongRecOn with
  | ind n ih =>
    by_cases h : n < 10
    · rw [natDec_lt10 n h]
      exact ⟨48 + n, [], rfl, by omega, by omega, by omega⟩
    · obtain ⟨c, t, hct, hc1, hc2, hpos⟩ := ih (n / 10) (by omega)
      rw [natDec_ge10 n h, hct]
      exact ⟨c, t ++ [48 + n % 10], by simp, hc1, hc2, fun _ => hpos (by omega)⟩

theorem takeDigits_cons_false {b : Nat} (hb : isDigitB b = false) (r : List Nat) :
    takeDigits (b :: r) = ([], b :: r) := by
  rw [takeDigits.eq_def]
  simp [hb]

theorem takeDigits_cons_true {b : Nat} (hb : isDigitB b = true) (r : List Nat) :
    takeDigits (b :: r) = (b :: (takeDigits r).1, (takeDigits r).2) := by
  rw [takeDigits.eq_def]
  simp [hb]

theorem takeDigits_stop {l : List Nat} (h : numDelim l = true) : takeDigits l = ([], l) := by
  match l with
  | [] => rfl
  | b :: t =>
    simp only [numDelim, Bool.not_eq_true', Bool.or_eq_false_iff] at h
    exact takeDigits_cons_false h.1.1.1 t

theorem takeDigits_run (ds : List Nat) (hds : ∀ b ∈ ds, isDigitB b = true) :
    ∀ rest, takeDigits rest = ([], rest) → takeDigits (ds ++ rest) = (ds, rest) := by
  induction ds with
  | nil => intro rest h; simpa using h
  | cons b t ih =>
    intro rest h
    rw [List.cons_append, takeDigits_cons_true (hds b (by simp)),
      ih (fun x hx => hds x (by simp [hx])) rest h]

theorem isDigitB_of_natDec {n b : Nat} (hb : b ∈ natDec n) : isDigitB b = true := by
  have := natDec_digits n b hb
  simp [isDigitB]
  omega

theorem parseIntPart_natDec (n : Nat) (rest : List Nat) (hrest : numDelim rest = true) :
    parseIntPart (natDec n ++ rest) = some (natDec n, rest) := by
  by_cases h0 : n = 0
  · subst h0
    rw [show natDec 0 = [48] from by rw [natDec_lt10 0 (by omega)]]
    rw [show ([48] : List Nat) ++ rest = 48 :: rest from rfl, parseIntPart.eq_def]
    simp
  · obtain ⟨c, t, hct, hc1, hc2, hpos⟩ := natDec_head_digit n
    have hc49 : 49 ≤ c := hpos (by omega)
    rw [hct, List.cons_append, parseIntPart.eq_def]
    simp only [if_neg (show ¬ c = 48 by omega)]
    have hrun : takeDigits (c :: (t ++ rest)) = (c :: t, rest) := by
      have := takeDigits_run (natDec n) (fun b hb => isDigitB_of_natDec hb) rest
        (takeDigits_stop hrest)
      rw [hct] at this
      simpa using this
    rw [hrun]
    simp [← hct, natDec_ne_nil n]

theorem parseFracPart_delim (l : List Nat) (h : numDelim l = true) :
    parseFracPart l = some ([], l) := by
  match l with
  | [] => rfl
  | b :: t =>
    simp only [numDelim, Bool.not_eq_true', Bool.or_eq_false_iff, beq_eq_false_iff_ne] at h
    rw [parseFracPart.eq_def]
    simp [h.1.1.2]

theorem parseExpPart_delim (l : List Nat) (h : numDelim l = true) :
    parseExpPart l = some ([], l) := by
  match l with
  | [] => rfl
  | b :: t =>
    simp only [numDelim, Bool.not_eq_true', Bool.or_eq_false_iff, beq_eq_false_iff_ne] at h
    rw [parseExpPart.eq_def]
    simp only [if_neg (show ¬ (b = 101 ∨ b = 69) by
      rcases h with ⟨⟨⟨h1, h2⟩, h3⟩, h4⟩
      omega)]

theorem parseNumCore_natDec (n : Nat) (rest : List Nat) (hrest : numDelim rest = true) :
    parseNumCore (natDec n ++ rest) = some (natDec n, rest) := by
  rw [parseNumCore, parseIntPart_natDec n rest hrest]
  simp only
  rw [parseFracPart_delim rest hrest]
  simp only
  rw [parseExpPart_delim rest hrest]
  simp

theorem parseNumTok_intDec (i : Int) (rest : List Nat) (hrest : numDelim rest = true) :
    parseNumTok (intDec i ++ rest) = some (intDec i, rest) := by
  by_cases hneg : i < 0
  · rw [show intDec i = 45 :: natDec i.natAbs from by simp [intDec, hneg]]
    rw [List.cons_append, parseNumTok.eq_def]
    simp only [if_pos rfl]
    rw [parseNumCore_natDec i.natAbs rest hrest]
    simp
  · rw [show intDec i = natDec i.natAbs from by simp [intDec, hneg]]
    obtain ⟨c, t, hct, hc1, hc2, _⟩ := natDec_head_digit i.natAbs
    rw [hct, List.cons_append, parseNumTok.eq_def]
    simp only [if_neg (show ¬ c = 45 by omega)]
    rw [← List.cons_append, ← hct, parseNumCore_natDec i.natAbs rest hrest]

/-! ### Value dispatch lemmas -/

theorem skipWs_cons {b : Nat} (hb : isWsB b = false) (r : List Nat) :
    skipWs (b :: r) = b :: r := by
  rw [skipWs.eq_def]
  simp [hb]

theorem isWsB_false_of_ge45 {b : Nat} (hb : 45 ≤ b) : isWsB b = false := by
  simp [isWsB]
  omega

theorem parseValue_escStr (g : Nat) (s rest : List Nat) :
    parseValue (g + 1) (((34 :: escapeJSON s) ++ [34]) ++ rest) = some (.str s, rest) := by
  rw [show ((34 :: escapeJSON s) ++ [34]) ++ rest = 34 :: (escapeJSON s ++ 34 :: rest) by simp]
  simp only [parseValue, skipWs_cons (show isWsB 34 = false by decide), parseStrBody_escape]
  norm_num

theorem parseValue_rawStr (g : Nat) (s rest : List Nat) (hs : rawSafe s = true) :
    parseValue (g + 1) (((34 :: s) ++ [34]) ++ rest) = some (.str s, rest) := by
  rw [show ((34 :: s) ++ [34]) ++ rest = 34 :: (s ++ 34 :: rest) by simp]
  simp only [parseValue, skipWs_cons (show isWsB 34 = false by decide), parseStrBody_raw s hs]
  norm_num

theorem parseValue_int (g : Nat) (i : Int) (rest : List Nat) (hrest : numDelim rest = true) :
    parseValue (g + 1) (intDec i ++ rest) = some (.num (intDec i), rest) := by
  by_cases hneg : i < 0
  · rw [show intDec i = 45 :: natDec i.natAbs from by simp [intDec, hneg], List.cons_append]
    simp only [parseValue, skipWs_cons (show isWsB 45 = false by decide)]
    norm_num
    rw [← List.cons_append, ← show intDec i = 45 :: natDec i.natAbs from by simp [intDec, hneg],
      parseNumTok_intDec i rest hrest]
  · obtain ⟨c, t, hct, hc1, hc2, _⟩ := natDec_head_digit i.natAbs
    have hid : intDec i = c :: t := by
      rw [show intDec i = natDec i.natAbs from by simp [intDec, hneg], hct]
    rw [hid, List.cons_append]
    simp only [parseValue, skipWs_cons (isWsB_false_of_ge45 (show 45 ≤ c by omega))]
    simp only [if_neg (show ¬ c = 110 by omega), if_neg (show ¬ c = 116 by omega),
      if_neg (show ¬ c = 102 by omega), if_neg (show ¬ c = 34 by omega),
      if_neg (show ¬ c = 123 by omega), if_neg (show ¬ c = 91 by omega),
      if_pos (show c = 45 ∨ isDigitB c = true by right; simp [isDigitB]; omega)]
    rw [← List.cons_append, ← hid, parseNumTok_intDec i rest hrest]

theorem parseValue_trueTok (g : Nat) (rest : List Nat) :
    parseValue (g + 1) (bs "true" ++ rest) = some (.bool true, rest) := by
  rw [show bs "true" ++ rest = 116 :: 114 :: 117 :: 101 :: rest from rfl]
  simp only [parseValue, skipWs_cons (show isWsB 116 = false by decide)]
  norm_num

theorem parseValue_falseTok (g : Nat) (rest : List Nat) :
    parseValue (g + 1) (bs "false" ++ rest) = some (.bool false, rest) := by
  rw [show bs "false" ++ rest = 102 :: 97 :: 108 :: 115 :: 101 :: rest from rfl]
  simp only [parseValue, skipWs_cons (show isWsB 102 = false by decide)]
  norm_num

theorem parseValue_nullTok (g : Nat) (rest : List Nat) :
    parseValue (g + 1) (bs "null" ++ rest) = some (.null, rest) := by
  rw [show bs "null" ++ rest = 110 :: 117 :: 108 :: 108 :: rest from rfl]
  simp only [parseValue, skipWs_cons (show isWsB 110 = false by decide)]
  norm_num

theorem parseValue_fieldValue (g : Nat) (v : Value) (rest : List Nat)
    (hv : jsonSafeValue v = true) (hrest : numDelim rest = true) :
    parseValue (g + 1) (formatJSONValue v ++ rest) = some (jsonOfValue v, rest) := by
  cases v with
  | str s => exact parseValue_escStr g s rest
  | byt b => exact parseValue_escStr g b rest
  | int i => exact parseValue_int g i rest hrest
  | intN i => exact parseValue_escStr g (intDec i) rest
  | uintN n => exact parseValue_escStr g (natDec n) rest
  | f64 x => simp [jsonSafeValue] at hv
  | f32 x => exact parseValue_escStr g (f64Tok x) rest
  | bool b =>
    cases b with
    | true => exact parseValue_trueTok g rest
    | false => exact parseValue_falseTok g rest
  | null => exact parseValue_nullTok g rest
  | err e2 => exact parseValue_escStr g (bs "<complex-type>") rest

/-! ### Output shape lemmas -/

theorem renderSep_append (l1 l2 : List PMember) :
    renderSep (l1 ++ l2) = renderSep l1 ++ renderSep l2 := by
  induction l1 with
  | nil => simp [renderSep]
  | cons m l ih => simp [renderSep, ih]

theorem fieldsSegSep_eq (fields : List (List Nat × Value)) :
    fieldsSegSep fields = renderSep (fieldPMs fields) := by
  induction fields with
  | nil => rfl
  | cons p rest ih => simp [fieldsSegSep, fieldPMs, renderSep, renderPMember, ih]

theorem fieldsSegment_eq (fields : List (List Nat × Value)) :
    fieldsSegment fields = renderPMembers (fieldPMs fields) := by
  cases fields with
  | nil => rfl
  | cons p rest => simp [fieldsSegment, fieldsSegSep_eq, fieldPMs, renderPMembers, renderPMember]

theorem formatManually_shape (f : JSONFormatter) (e : LogEntry) :
    formatManually f e = 123 :: (renderPMembers (pMembers f e) ++ [125, 10]) := by
  cases hsc : f.ShowCaller <;> cases hca : e.Caller <;>
    (unfold formatManually
     simp only [pMembers, hsc, hca, List.cons_append, List.nil_append]
     simp [apply_ite renderSep, renderSep_append, renderSep, renderPMember, renderPMembers,
       fieldsSegment_eq, bs, List.append_assoc])

/-! ### Object member loop -/

theorem renderPMembers_cons_append (m : PMember) (ms : List PMember) (tail : List Nat) :
    renderPMembers (m :: ms) ++ tail
      = 34 :: (m.name ++ 34 :: 58 :: (m.bytes ++ (renderSep ms ++ tail))) := by
  simp [renderPMembers, renderPMember]

theorem numDelim_comma (t : List Nat) : numDelim (44 :: t) = true := by
  simp [numDelim, isDigitB]

theorem numDelim_rbrace (t : List Nat) : numDelim (125 :: t) = true := by
  simp [numDelim, isDigitB]

theorem parseMembers_render (base : Nat) :
    ∀ (ms : List PMember), (∀ m ∈ ms, MemberOk base m) → ms ≠ [] →
    ∀ (fuel : Nat) (rest : List Nat), ms.length + base ≤ fuel →
      parseMembers fuel (renderPMembers ms ++ 125 :: rest)
        = some (ms.map (fun m => (m.name, m.val)), rest) := by
  intro ms
  induction ms with
  | nil => intro _ hne; exact absurd rfl hne
  | cons m ms ih =>
    intro hok _ fuel rest hfuel
    simp only [List.length_cons] at hfuel
    obtain ⟨hname, ⟨b0, t0, hbytes, hb0⟩, hval⟩ := hok m (by simp)
    obtain ⟨g, rfl⟩ : ∃ g, fuel = g + 1 := ⟨fuel - 1, by omega⟩
    rw [renderPMembers_cons_append]
    simp only [parseMembers, skipWs_cons (show isWsB 34 = false by decide)]
    rw [show m.name ++ 34 :: 58 :: (m.bytes ++ (renderSep ms ++ 125 :: rest))
        = m.name ++ 34 :: (58 :: (m.bytes ++ (renderSep ms ++ 125 :: rest))) from rfl,
      parseStrBody_raw m.name hname]
    simp only [List.reverse_nil, List.nil_append]
    rw [skipWs_cons (show isWsB 58 = false by decide)]
    simp only
    have hws_bytes : skipWs (m.bytes ++ (renderSep ms ++ 125 :: rest))
        = m.bytes ++ (renderSep ms ++ 125 :: rest) := by
      rw [hbytes, List.cons_append, skipWs_cons hb0]
    rw [hws_bytes]
    have hdelim : numDelim (renderSep ms ++ 125 :: rest) = true := by
      cases ms with
      | nil => simpa [renderSep] using numDelim_rbrace rest
      | cons m2 ms2 =>
        rw [show renderSep (m2 :: ms2) ++ 125 :: rest
            = 44 :: (renderPMember m2 ++ renderSep ms2 ++ 125 :: rest) by
          simp [renderSep]]
        exact numDelim_comma _
    rw [hval g _ (by omega) hdelim]
    simp only
    cases ms with
    | nil =>
      rw [show renderSep ([] : List PMember) ++ 125 :: rest = 125 :: rest by simp [renderSep]]
      rw [skipWs_cons (show isWsB 125 = false by decide)]
      simp
    | cons m2 ms2 =>
      rw [show renderSep (m2 :: ms2) ++ 125 :: rest
          = 44 :: (renderPMembers (m2 :: ms2) ++ 125 :: rest) by
        simp [renderSep, renderPMembers]]
      rw [skipWs_cons (show isWsB 44 = false by decide)]
      simp only
      rw [renderPMembers_cons_append]
      rw [skipWs_cons (show isWsB 34 = false by decide)]
      rw [← renderPMembers_cons_append]
      rw [ih (fun x hx => hok x (by simp [hx])) (by simp) g rest (by simp only [List.length_cons] at hfuel ⊢; omega)]
      simp

/-! ### Member conditions -/

theorem MemberOk.mono {b1 b2 : Nat} {m : PMember} (h : MemberOk b1 m) (hb : b1 ≤ b2) :
    MemberOk b2 m :=
  ⟨h.1, h.2.1, fun g rest hg hrest => h.2.2 g rest (by omega) hrest⟩

theorem memberOk_rawStr (name s : List Nat) (hn : rawSafe name = true)
    (hs : rawSafe s = true) :
    MemberOk 1 ⟨name, (34 :: s) ++ [34], .str s⟩ := by
  refine ⟨hn, ⟨34, s ++ [34], by simp, by decide⟩, ?_⟩
  intro g rest hg _
  obtain ⟨g', rfl⟩ : ∃ g', g = g' + 1 := ⟨g - 1, by omega⟩
  exact parseValue_rawStr g' s rest hs

theorem memberOk_escStr (name s : List Nat) (hn : rawSafe name = true) :
    MemberOk 1 ⟨name, (34 :: escapeJSON s) ++ [34], .str s⟩ := by
  refine ⟨hn, ⟨34, escapeJSON s ++ [34], by simp, by decide⟩, ?_⟩
  intro g rest hg _
  obtain ⟨g', rfl⟩ : ∃ g', g = g' + 1 := ⟨g - 1, by omega⟩
  exact parseValue_escStr g' s rest

theorem intDec_head (i : Int) : ∃ b t, intDec i = b :: t ∧ isWsB b = false := by
  by_cases hneg : i < 0
  · exact ⟨45, natDec i.natAbs, by simp [intDec, hneg], by decide⟩
  · obtain ⟨c, t, hct, hc1, hc2, _⟩ := natDec_head_digit i.natAbs
    exact ⟨c, t, by simp [intDec, hneg, hct], isWsB_false_of_ge45 (by omega)⟩

theorem memberOk_int (name : List Nat) (i : Int) (hn : rawSafe name = true) :
    MemberOk 1 ⟨name, intDec i, .num (intDec i)⟩ := by
  refine ⟨hn, intDec_head i, ?_⟩
  intro g rest hg hrest
  obtain ⟨g', rfl⟩ : ∃ g', g = g' + 1 := ⟨g - 1, by omega⟩
  exact parseValue_int g' i rest hrest

theorem formatJSONValue_head (v : Value) :
    ∃ b t, formatJSONValue v = b :: t ∧ isWsB b = false := by
  cases v with
  | str s => exact ⟨34, escapeJSON s ++ [34], by simp [formatJSONValue], by decide⟩
  | byt b => exact ⟨34, escapeJSON b ++ [34], by simp [formatJSONValue], by decide⟩
  | int i =>
    obtain ⟨b, t, hb, hw⟩ := intDec_head i
    exact ⟨b, t, by simp [formatJSONValue, hb], hw⟩
  | intN i =>
    exact ⟨34, escapeJSON (intDec i) ++ [34], by simp [formatJSONValue], by decide⟩
  | uintN n =>
    exact ⟨34, escapeJSON (natDec n) ++ [34], by simp [formatJSONValue], by decide⟩
  | f64 x =>
    cases x with
    | nan => exact ⟨78, [97, 78], by simp [formatJSONValue, f64Tok, bs], by decide⟩
    | posInf => exact ⟨43, [73, 110, 102], by simp [formatJSONValue, f64Tok, bs], by decide⟩
    | negInf => exact ⟨45, [73, 110, 102], by simp [formatJSONValue, f64Tok, bs], by decide⟩
  | f32 x =>
    exact ⟨34, escapeJSON (f64Tok x) ++ [34], by simp [formatJSONValue], by decide⟩
  | bool b =>
    cases b with
    | true => exact ⟨116, [114, 117, 101], by simp [formatJSONValue, bs], by decide⟩
    | false => exact ⟨102, [97, 108, 115, 101], by simp [formatJSONValue, bs], by decide⟩
  | null => exact ⟨110, [117, 108, 108], by simp [formatJSONValue, bs], by decide⟩
  | err e2 =>
    exact ⟨34, escapeJSON (bs "<complex-type>") ++ [34], by simp [formatJSONValue], by decide⟩

theorem memberOk_fieldPM (p : List Nat × Value) (hn : rawSafe p.1 = true)
    (hv : jsonSafeValue p.2 = true) :
    MemberOk 1 ⟨p.1, formatJSONValue p.2, jsonOfValue p.2⟩ := by
  refine ⟨hn, formatJSONValue_head p.2, ?_⟩
  intro g rest hg hrest
  obtain ⟨g', rfl⟩ : ∃ g', g = g' + 1 := ⟨g - 1, by omega⟩
  exact parseValue_fieldValue g' p.2 rest hv hrest

theorem parseValue_objRender (ms : List PMember) (hok : ∀ m ∈ ms, MemberOk 1 m)
    (hne : ms ≠ []) (g : Nat) (rest : List Nat) (hg : ms.length + 1 ≤ g) :
    parseValue (g + 1) (((123 :: renderPMembers ms) ++ [125]) ++ rest)
      = some (.obj (ms.map (fun m => (m.name, m.val))), rest) := by
  rw [show ((123 :: renderPMembers ms) ++ [125]) ++ rest
      = 123 :: (renderPMembers ms ++ 125 :: rest) by simp]
  simp only [parseValue, skipWs_cons (show isWsB 123 = false by decide)]
  norm_num
  cases ms with
  | nil => exact absurd rfl hne
  | cons m ms2 =>
    rw [renderPMembers_cons_append, skipWs_cons (show isWsB 34 = false by decide)]
    simp only [if_neg (show ¬ (34 : Nat) = 125 by decide)]
    rw [← renderPMembers_cons_append,
      parseMembers_render 1 (m :: ms2) hok (by simp) g rest (by
        simp only [List.length_cons] at hg ⊢
        omega)]

/-! ### Safety of the emitted members -/

theorem rawSafe_append (a b : List Nat) :
    rawSafe (a ++ b) = (rawSafe a && rawSafe b) := by
  simp [rawSafe, List.all_append]

theorem rawSafe_natDec (n : Nat) : rawSafe (natDec n) = true := by
  simp only [rawSafe, List.all_eq_true]
  intro b hb
  have := natDec_digits n b hb
  simp only [Bool.and_eq_true, bne_iff_ne, decide_eq_true_eq]
  omega

theorem rawSafe_intDec (i : Int) : rawSafe (intDec i) = true := by
  by_cases hneg : i < 0
  · rw [show intDec i = [45] ++ natDec i.natAbs from by simp [intDec, hneg],
      rawSafe_append, rawSafe_natDec]
    decide
  · rw [show intDec i = natDec i.natAbs from by simp [intDec, hneg]]
    exact rawSafe_natDec i.natAbs

theorem levelBytes_rawSafe (lv : Level) : rawSafe lv.bytes = true := by
  cases lv <;> decide

theorem fieldPMs_ok (fields : List (List Nat × Value))
    (hnames : ∀ p ∈ fields, rawSafe p.1 = true)
    (hvals : ∀ p ∈ fields, jsonSafeValue p.2 = true) :
    ∀ m ∈ fieldPMs fields, MemberOk 1 m := by
  intro m hm
  simp only [fieldPMs, List.mem_map] at hm
  obtain ⟨p, hp, rfl⟩ := hm
  exact memberOk_fieldPM p (hnames p hp) (hvals p hp)

theorem memberOk_fields (fields : List (List Nat × Value))
    (hnames : ∀ p ∈ fields, rawSafe p.1 = true)
    (hvals : ∀ p ∈ fields, jsonSafeValue p.2 = true) (hne : fields ≠ []) :
    MemberOk (fields.length + 2)
      ⟨bs "fields", (123 :: renderPMembers (fieldPMs fields)) ++ [125],
       .obj (fields.map (fun p => (p.1, jsonOfValue p.2)))⟩ := by
  refine ⟨show rawSafe (bs "fields") = true by decide,
    ⟨123, renderPMembers (fieldPMs fields) ++ [125], by simp, by decide⟩, ?_⟩
  intro g rest hg hrest
  obtain ⟨g', rfl⟩ : ∃ g', g = g' + 1 := ⟨g - 1, by omega⟩
  have hmap : (fieldPMs fields).map (fun m => (m.name, m.val))
      = fields.map (fun p => (p.1, jsonOfValue p.2)) := by
    simp [fieldPMs]
  rw [show ((123 :: renderPMembers (fieldPMs fields)) ++ [125]) ++ rest
      = ((123 :: renderPMembers (fieldPMs fields)) ++ [125]) ++ rest from rfl,
    parseValue_objRender (fieldPMs fields) (fieldPMs_ok fields hnames hvals)
      (by simpa [fieldPMs] using hne) g' rest
      (by simp only [fieldPMs, List.length_map]; omega),
    hmap]

theorem pMembers_ok (f : JSONFormatter) (e : LogEntry)
    (hts : rawSafe e.Timestamp = true)
    (hcaller : ∀ c, e.Caller = some c → rawSafe c.file = true)
    (htr : rawSafe e.TraceID = true) (hsp : rawSafe e.SpanID = true)
    (hus : rawSafe e.UserID = true)
    (hnames : ∀ p ∈ e.Fields, rawSafe p.1 = true)
    (hvals : ∀ p ∈ e.Fields, jsonSafeValue p.2 = true) :
    ∀ m ∈ pMembers f e, MemberOk (e.Fields.length + 3) m := by
  intro m hm
  simp only [pMembers, List.append_assoc, List.mem_append, List.mem_cons,
    List.not_mem_nil, or_false] at hm
  rcases hm with (rfl | rfl | rfl) | hm | hm | hm | hm | hm
  · exact (memberOk_rawStr (bs "timestamp") e.Timestamp (by decide) hts).mono (show 1 ≤ e.Fields.length + 3 by omega)
  · exact (memberOk_rawStr (bs "level_name") e.Level.bytes (by decide)
      (levelBytes_rawSafe e.Level)).mono (show 1 ≤ e.Fields.length + 3 by omega)
  · exact (memberOk_escStr (bs "message") e.Message (by decide)).mono (show 1 ≤ e.Fields.length + 3 by omega)
  · -- pid chunk
    by_cases hp : f.ShowPID
    · rw [if_pos hp] at hm
      simp only [List.mem_singleton] at hm
      subst hm
      exact (memberOk_int (bs "pid") e.PID (by decide)).mono (show 1 ≤ e.Fields.length + 3 by omega)
    · rw [if_neg hp] at hm
      exact absurd hm (List.not_mem_nil m)
  · -- caller chunk
    cases hsc : f.ShowCaller
    · rw [hsc] at hm
      exact absurd hm (List.not_mem_nil m)
    · cases hca : e.Caller with
      | none =>
        rw [hsc, hca] at hm
        exact absurd hm (List.not_mem_nil m)
      | some c =>
        rw [hsc, hca] at hm
        simp only [List.mem_singleton] at hm
        subst hm
        have hfile : rawSafe (c.file ++ 58 :: intDec c.line) = true := by
          rw [show (58 :: intDec c.line) = [58] ++ intDec c.line from rfl, rawSafe_append,
            rawSafe_append, hcaller c hca, rawSafe_intDec]
          decide
        exact (memberOk_rawStr (bs "caller") (c.file ++ 58 :: intDec c.line)
          (by decide) hfile).mono (show 1 ≤ e.Fields.length + 3 by omega)
  · -- fields chunk
    by_cases hfp : e.Fields.length > 0
    · rw [if_pos hfp] at hm
      simp only [List.mem_singleton] at hm
      subst hm
      exact (memberOk_fields e.Fields hnames hvals (by
        intro h0
        rw [h0] at hfp
        simp at hfp)).mono (show e.Fields.length + 2 ≤ e.Fields.length + 3 by omega)
    · rw [if_neg hfp] at hm
      exact absurd hm (List.not_mem_nil m)
  · -- trace chunk
    by_cases hst : f.ShowTraceInfo
    · rw [if_pos hst] at hm
      simp only [List.mem_append] at hm
      rcases hm with hm | hm | hm
      · by_cases h1 : e.TraceID ≠ []
        · rw [if_pos h1] at hm
          simp only [List.mem_singleton] at hm
          subst hm
          exact (memberOk_rawStr (bs "trace_id") e.TraceID (by decide) htr).mono (show 1 ≤ e.Fields.length + 3 by omega)
        · rw [if_neg h1] at hm
          exact absurd hm (List.not_mem_nil m)
      · by_cases h2 : e.SpanID ≠ []
        · rw [if_pos h2] at hm
          simp only [List.mem_singleton] at hm
          subst hm
          exact (memberOk_rawStr (bs "span_id") e.SpanID (by decide) hsp).mono (show 1 ≤ e.Fields.length + 3 by omega)
        · rw [if_neg h2] at hm
          exact absurd hm (List.not_mem_nil m)
      · by_cases h3 : e.UserID ≠ []
        · rw [if_pos h3] at hm
          simp only [List.mem_singleton] at hm
          subst hm
          exact (memberOk_rawStr (bs "user_id") e.UserID (by decide) hus).mono (show 1 ≤ e.Fields.length + 3 by omega)
        · rw [if_neg h3] at hm
          exact absurd hm (List.not_mem_nil m)
    · rw [if_neg hst] at hm
      exact absurd hm (List.not_mem_nil m)
  · -- stack chunk
    by_cases hss : f.EnableStackTrace ∧ e.StackTrace.length > 0
    · rw [if_pos hss] at hm
      simp only [List.mem_singleton] at hm
      subst hm
      exact (memberOk_escStr (bs "stack_trace") e.StackTrace (by decide)).mono (show 1 ≤ e.Fields.length + 3 by omega)
    · rw [if_neg hss] at hm
      exact absurd hm (List.not_mem_nil m)

/-! ### Length bounds for the parser fuel -/

theorem renderSep_len (ms : List PMember) :
    List.sum (ms.map (fun m => m.bytes.length + 1)) ≤ (renderSep ms).length := by
  induction ms with
  | nil => simp [renderSep]
  | cons m ms ih =>
    simp only [renderSep, List.map_cons, List.sum_cons, List.length_append, List.length_cons,
      renderPMember, List.length_append]
    simp at ih ⊢
    omega

theorem renderPMembers_len (ms : List PMember) :
    List.sum (ms.map (fun m => m.bytes.length + 1)) ≤ (renderPMembers ms).length := by
  cases ms with
  | nil => simp [renderPMembers]
  | cons m ms =>
    have h := renderSep_len ms
    simp only [renderPMembers, List.map_cons, List.sum_cons, List.length_append,
      renderPMember, List.length_cons] at *
    simp at h ⊢
    omega

theorem sum_bytes_ge_len (ms : List PMember) :
    ms.length ≤ List.sum (ms.map (fun m => m.bytes.length + 1)) := by
  induction ms with
  | nil => simp
  | cons m ms ih =>
    simp only [List.map_cons, List.sum_cons, List.length_cons]
    omega

theorem sum_bytes_ge_mem (ms : List PMember) (m : PMember) (hm : m ∈ ms) :
    ms.length + m.bytes.length ≤ List.sum (ms.map (fun x => x.bytes.length + 1)) := by
  induction ms with
  | nil => simp at hm
  | cons x ms ih =>
    simp only [List.map_cons, List.sum_cons, List.length_cons]
    rcases List.mem_cons.mp hm with rfl | hm2
    · have := sum_bytes_ge_len ms
      omega
    · have := ih hm2
      omega

theorem fieldsMember_mem (f : JSONFormatter) (e : LogEntry) (h : e.Fields.length > 0) :
    (⟨bs "fields", (123 :: renderPMembers (fieldPMs e.Fields)) ++ [125],
      .obj (e.Fields.map (fun p => (p.1, jsonOfValue p.2)))⟩ : PMember) ∈ pMembers f e := by
  simp only [pMembers, List.append_assoc, List.mem_append]
  right; right; right
  left
  rw [if_pos h]
  simp

theorem topRender_len (f : JSONFormatter) (e : LogEntry) :
    (pMembers f e).length + e.Fields.length ≤ (renderPMembers (pMembers f e)).length := by
  have hsum := renderPMembers_len (pMembers f e)
  by_cases h : e.Fields.length > 0
  · have hmem := sum_bytes_ge_mem (pMembers f e) _ (fieldsMember_mem f e h)
    have hfl : e.Fields.length
        ≤ ((⟨bs "fields", (123 :: renderPMembers (fieldPMs e.Fields)) ++ [125],
            .obj (e.Fields.map (fun p => (p.1, jsonOfValue p.2)))⟩ : PMember)).bytes.length := by
      have h1 := renderPMembers_len (fieldPMs e.Fields)
      have h2 := sum_bytes_ge_len (fieldPMs e.Fields)
      have h3 : (fieldPMs e.Fields).length = e.Fields.length := by simp [fieldPMs]
      simp only [List.length_append, List.length_cons]
      omega
    omega
  · have h0 : e.Fields.length = 0 := by omega
    have := sum_bytes_ge_len (pMembers f e)
    omega

/-! ### Whole-document parse -/

theorem pMembers_ne_nil (f : JSONFormatter) (e : LogEntry) : pMembers f e ≠ [] := by
  simp [pMembers]

theorem jsonParse_formatManually (f : JSONFormatter) (e : LogEntry)
    (hts : rawSafe e.Timestamp = true)
    (hcaller : ∀ c, e.Caller = some c → rawSafe c.file = true)
    (htr : rawSafe e.TraceID = true) (hsp : rawSafe e.SpanID = true)
    (hus : rawSafe e.UserID = true)
    (hnames : ∀ p ∈ e.Fields, rawSafe p.1 = true)
    (hvals : ∀ p ∈ e.Fields, jsonSafeValue p.2 = true) :
    jsonParse (formatManually f e) = some (.obj (jsonMembers f e)) := by
  have hok := pMembers_ok f e hts hcaller htr hsp hus hnames hvals
  have hlenb := topRender_len f e
  rw [jsonParse, formatManually_shape f e]
  rw [show (123 :: (renderPMembers (pMembers f e) ++ [125, 10])).length
      = (renderPMembers (pMembers f e)).length + 3 by simp]
  simp only [parseValue, skipWs_cons (show isWsB 123 = false by decide)]
  norm_num
  rcases hpm : pMembers f e with _ | ⟨m, ms2⟩
  · exact absurd hpm (pMembers_ne_nil f e)
  · rw [hpm] at hok hlenb
    rw [show renderPMembers (m :: ms2) ++ [125, 10] = renderPMembers (m :: ms2) ++ 125 :: [10]
      from rfl]
    rw [renderPMembers_cons_append, skipWs_cons (show isWsB 34 = false by decide)]
    simp only [if_neg (show ¬ (34 : Nat) = 125 by decide)]
    rw [← renderPMembers_cons_append,
      parseMembers_render (e.Fields.length + 3) (m :: ms2) hok (by simp)
        ((renderPMembers (m :: ms2)).length + 3) [10]
        (by simp only [List.length_cons] at hlenb ⊢; omega)]
    simp only []
    rw [show skipWs [10] = [] from by rw [skipWs.eq_def]; simp [isWsB, skipWs]]
    simp [jsonMembers, hpm]

end Mire
namespace Mire

theorem lookupMember_append (k : List Nat) (l1 l2 : List (List Nat × JsonVal)) :
    lookupMember k (l1 ++ l2)
      = (match lookupMember k l1 with
         | some v => some v
         | none => lookupMember k l2) := by
  induction l1 with
  | nil => simp [lookupMember]
  | cons p l ih =>
    obtain ⟨k1, v1⟩ := p
    by_cases h : k1 = k
    · simp [lookupMember, h]
    · simp [lookupMember, h, ih]

theorem lookupMember_ite (k : List Nat) (c : Prop) [Decidable c]
    (l1 l2 : List (List Nat × JsonVal)) :
    lookupMember k (if c then l1 else l2)
      = if c then lookupMember k l1 else lookupMember k l2 :=
  apply_ite (lookupMember k) c l1 l2

theorem lookupMember_fields (f : JSONFormatter) (e : LogEntry) :
    lookupMember (bs "fields") (jsonMembers f e)
      = (if e.Fields.length > 0
         then some (.obj (e.Fields.map (fun p => (p.1, jsonOfValue p.2))))
         else none) := by
  cases hsc : f.ShowCaller <;> cases hca : e.Caller <;>
    simp [jsonMembers, pMembers, hsc, hca, List.map_append,
      apply_ite (List.map (fun (m : PMember) => (m.name, m.val))),
      lookupMember_append, lookupMember_ite, lookupMember, bs] <;>
    (split <;> rename_i heq <;> exact heq.symm)

/-- Claim C3 (corrected): the round trip holds only on a restricted domain —
`formatManually` writes field names unescaped, so a name containing a quote,
backslash, or control byte breaks the JSON framing, and a non-finite
`float64` value is written as a bare `NaN`/`+Inf`/`-Inf` token, which is not
JSON (see the companion counterexample for both).  For entries whose field
names, timestamp, caller file, and trace/span/user ids are JSON-safe raw
byte strings and whose field values are JSON-representable (no non-finite
`float64`), the non-pretty `Format` output parses back to a JSON object, and
its `fields` member holds exactly the entry's field names and values — with
no masking applied, and with values of the widths the source's `default`
branch quotes (`int8`/`int16`/`int32`, unsigned, `float32`) coming back as
JSON strings of their digits rather than numbers; entries with no fields
have no `fields` member. -/
theorem jsonFormat_roundtrip (f : JSONFormatter) (e : LogEntry)
    (hts : rawSafe e.Timestamp = true)
    (hcaller : ∀ c, e.Caller = some c → rawSafe c.file = true)
    (htr : rawSafe e.TraceID = true) (hsp : rawSafe e.SpanID = true)
    (hus : rawSafe e.UserID = true)
    (hnames : ∀ p ∈ e.Fields, rawSafe p.1 = true)
    (hvals : ∀ p ∈ e.Fields, jsonSafeValue p.2 = true) :
    jsonParse (formatManually f e) = some (.obj (jsonMembers f e)) ∧
    lookupMember (bs "fields") (jsonMembers f e)
      = (if e.Fields.length > 0
         then some (.obj (e.Fields.map (fun p => (p.1, jsonOfValue p.2))))
         else none) :=
  ⟨jsonParse_formatManually f e hts hcaller htr hsp hus hnames hvals,
   lookupMember_fields f e⟩

/-- Claim C3 counterexample, three facets against the unrestricted claim.
With default formatter settings: (1) an entry whose single field name
contains a double quote yields bytes that do not parse at all — the name is
written unescaped and breaks the JSON framing; (2) an entry whose single
field value is the `float64` NaN also yields unparseable bytes — the value
is written as the bare token `NaN`; (3) an entry carrying the `int8` value
42 parses, but the field comes back as the JSON string `"42"` — the
`default` branch quotes every integer width other than `int`/`int64` — and
not as the number token 42 the original round-trip claim requires. -/
theorem jsonFormat_roundtrip_cex :
    jsonParse (formatManually {} c3Entry) = none ∧
    jsonParse (formatManually {} c3NanEntry) = none ∧
    lookupMember (bs "fields") (jsonMembers {} c3I8Entry)
      = some (.obj [(bs "n", .str (bs "42"))]) ∧
    JsonVal.str (bs "42") ≠ JsonVal.num (bs "42") ∧
    jsonParse (formatManually {} c3I8Entry) = some (.obj (jsonMembers {} c3I8Entry)) := by
  refine ⟨by rfl, by rfl, by rfl, by simp, by rfl⟩

/-- Claim C3 witness: the corrected round trip evaluated at the default
formatter and the concrete `password = "secret"` entry. -/
theorem jsonFormat_roundtrip_witness :
    jsonParse (formatManually {} c1Entry) = some (.obj (jsonMembers {} c1Entry)) ∧
    lookupMember (bs "fields") (jsonMembers {} c1Entry)
      = (if c1Entry.Fields.length > 0
         then some (.obj (c1Entry.Fields.map (fun p => (p.1, jsonOfValue p.2))))
         else none) :=
  jsonFormat_roundtrip {} c1Entry (by decide)
    (by intro c h; simp [c1Entry] at h) (by decide) (by decide) (by decide)
    (by decide) (by decide)

end Mire
